import Mathlib

/-!
# Verification development for `src/lib/adBlockRustUtils.js`

A shallow embedding of the scriptlet bundler (`generateResources`), the
argument shim (`wrapScriptletArgFormat`), the list partition
(`getDefaultLists`, `getRegionalLists`), the memoiser (`lazyInit`) and the
sanity validator (`sanityCheckList`).

Modelling conventions.

* JavaScript objects that the code mutates are addressed by their position in
  `builtinScriptlets`: the catalog is a `List Fragment` that is threaded through
  the computation, and `dependencyMap` yields positions (references), not copies.
* `Fragment.fn` is the text `entry.fn.toString()`; every entry is taken to carry
  a function, so the `thisDepCode === undefined` branch of the source cannot be
  taken and is not represented.
* Every entry owns its `dependencies` array (no array is shared by two
  entries), as in a catalog written with array literals.
* Dependency names are taken to be ordinary keys. A name that no entry bears
  but that `Object.prototype` knows makes the source throw as well, at the
  `.fn.toString()` of line 94 instead of the `.dependencies` of line 87.
* A `throw` (of any kind) is `Outcome.throws`; a rejected promise of an `async`
  function is the same outcome.
* The `for ... of` loop over the growing array is a recursion on a fuel
  counter; fuel is supplied by `resolutionFuel` and is shown never to run out,
  and more fuel never changes a result (`expandDependencies_fuel_mono`).
* The generated wrapper is taken to run where `Array.prototype` has no
  enumerable property, so that `for ... in` visits the keys 0 to 8 in order.
* `JSON.stringify`, `adblock-rs` and the network are outside the model: the
  manifest is the array handed to `JSON.stringify`, the engine and the network
  are parameters.
-/

namespace AdBlockRustUtils

/-! ## Data model -/

/-- One element of `builtinScriptlets`; `aliases` and `dependencies` may be
`undefined` (here `none`). -/
structure Fragment where
  name : String
  aliases : Option (List String)
  dependencies : Option (List String)
  fn : String
  deriving DecidableEq

/-- The `kind` tag of a resource record. -/
inductive Kind where
  | mime (mime : String)
  | template
  deriving DecidableEq

/-- One record of the resource manifest. -/
structure ResourceEntry where
  name : String
  aliases : List String
  kind : Kind
  content : String
  deriving DecidableEq

/-- The exceptions the modelled code can raise. -/
inductive JsError where
  | typeError (message : String)
  | error (message : String)
  deriving DecidableEq

/-- Result of running a piece of the program. -/
inductive Outcome (α : Type) where
  | ok (value : α)
  | throws (e : JsError)
  | outOfFuel
  deriving DecidableEq

/-! ## `wrapScriptletArgFormat` (lines 60-72) -/

/-- The template literal of `wrapScriptletArgFormat`, character for character. -/
def wrapScriptletArgFormat (fnString dependencyPrelude : String) : String :=
  "\x7b\n" ++
  "  const args = [\"\x7b\x7b1\x7d\x7d\", \"\x7b\x7b2\x7d\x7d\", \"\x7b\x7b3\x7d\x7d\", " ++
  "\"\x7b\x7b4\x7d\x7d\", \"\x7b\x7b5\x7d\x7d\", \"\x7b\x7b6\x7d\x7d\", " ++
  "\"\x7b\x7b7\x7d\x7d\", \"\x7b\x7b8\x7d\x7d\", \"\x7b\x7b9\x7d\x7d\"];\n" ++
  "  let last_arg_index = 0;\n" ++
  "  for (const arg_index in args) \x7b\n" ++
  "    if (args[arg_index] === \x27\x7b\x7b\x27 + (Number(arg_index) + 1) + \x27\x7d\x7d\x27) \x7b\n" ++
  "      break;\n" ++
  "    \x7d\n" ++
  "    last_arg_index += 1;\n" ++
  "  \x7d\n" ++
  "  " ++ dependencyPrelude ++ "\n" ++
  "  (" ++ fnString ++ ")(...args.slice(0, last_arg_index))\n" ++
  "\x7d"

/-- The nine string literals of the `args` array as the generated text has them
before any placeholder is substituted. -/
def sentinelArgs : List String :=
  ["\x7b\x7b1\x7d\x7d", "\x7b\x7b2\x7d\x7d", "\x7b\x7b3\x7d\x7d",
   "\x7b\x7b4\x7d\x7d", "\x7b\x7b5\x7d\x7d", "\x7b\x7b6\x7d\x7d",
   "\x7b\x7b7\x7d\x7d", "\x7b\x7b8\x7d\x7d", "\x7b\x7b9\x7d\x7d"]

/-- The `for (const arg_index in args)` loop of the generated wrapper: `rest` is
the part of `args` not yet visited, `argIndex` the current key and
`lastArgIndex` the counter. The comparison string is built as the wrapper
builds it, from the decimal text of `Number(arg_index) + 1`. -/
def scanArgs : List String → Nat → Nat → Nat
  | [], _, lastArgIndex => lastArgIndex
  | arg :: rest, argIndex, lastArgIndex =>
    if arg = "\x7b\x7b" ++ toString (argIndex + 1) ++ "\x7d\x7d" then lastArgIndex
    else scanArgs rest (argIndex + 1) (lastArgIndex + 1)

/-- Value of `last_arg_index` when the loop of the wrapper is left. -/
def lastArgIndex (args : List String) : Nat := scanArgs args 0 0

/-- Arguments of the final call `(fn)(...args.slice(0, last_arg_index))`. -/
def invocationArgs (args : List String) : List String :=
  args.take (lastArgIndex args)

/-- The `args` array of a deployed wrapper in which the upstream templating pass
has put the caller texts `supplied` in place of the first placeholders and has
left the others as they were. -/
def substitutedArgs (supplied : List String) : List String :=
  supplied ++ sentinelArgs.drop supplied.length

/-! ## `generateResources` (lines 74-119) -/

/-- The `reduce` of line 77, unrolled: `map[entry.name] = entry` for every entry
in order, a later entry overwriting an earlier one of the same name. The value
stored is the position of the entry (a reference to the object). -/
def buildDependencyMap : List Fragment → Nat → (String → Option Nat) → (String → Option Nat)
  | [], _, map => map
  | entry :: rest, position, map =>
    buildDependencyMap rest (position + 1)
      (fun key => if key = entry.name then some position else map key)

/-- The object `dependencyMap`; `none` is `undefined`. -/
def dependencyMap (builtinScriptlets : List Fragment) : String → Option Nat :=
  buildDependencyMap builtinScriptlets 0 (fun _ => none)

/-- The array `entry.dependencies ?? []` of the entry stored at `position`. -/
def dependenciesAt (catalog : List Fragment) (position : Nat) : List String :=
  match catalog[position]? with
  | some entry => entry.dependencies.getD []
  | none => []

/-- The array read by `dependencyMap[dep].dependencies ?? []` while the entry at
position `current` is being processed. The working array `requiredDependencies`
is `s.dependencies` itself whenever that is defined (`aliased`), so a look-up
that lands on the current entry sees the working array. The inner loop then
walks the very array it tests with `includes`, finds each element included and
pushes nothing, so the array may be read once, when the inner loop starts. -/
def liveDependencies (catalog : List Fragment) (current : Nat) (aliased : Bool)
    (requiredDependencies : List String) (position : Nat) : List String :=
  if position = current ∧ aliased = true then requiredDependencies
  else dependenciesAt catalog position

/-- The inner loop of lines 87-91: every `recursiveDep` that the working array
does not include is pushed at its end. -/
def pushMissing (requiredDependencies : List String) : List String → List String
  | [] => requiredDependencies
  | recursiveDep :: rest =>
    pushMissing
      (if requiredDependencies.contains recursiveDep then requiredDependencies
       else requiredDependencies ++ [recursiveDep]) rest

/-- The outer loop of lines 86-92. The array iterator is the index `cursor`; it
stops when the index reaches the current length, so elements pushed during the
loop are visited too. A look-up of an absent name makes
`dependencyMap[dep].dependencies` throw. -/
def expandDependencies (catalog : List Fragment) (map : String → Option Nat)
    (current : Nat) (aliased : Bool) : Nat → List String → Nat → Outcome (List String)
  | 0, _, _ => Outcome.outOfFuel
  | fuel + 1, requiredDependencies, cursor =>
    match requiredDependencies[cursor]? with
    | none => Outcome.ok requiredDependencies
    | some dep =>
      match map dep with
      | none =>
        Outcome.throws (JsError.typeError
          "Cannot read properties of undefined (reading \x27dependencies\x27)")
      | some position =>
        expandDependencies catalog map current aliased fuel
          (pushMissing requiredDependencies
            (liveDependencies catalog current aliased requiredDependencies position))
          (cursor + 1)

/-- Every name that occurs in some `dependencies` array of the catalog. -/
def referencedNames (catalog : List Fragment) : List String :=
  catalog.flatMap (fun entry => entry.dependencies.getD [])

/-- Fuel that suffices for `expandDependencies` started on `initial`. -/
def resolutionFuel (catalog : List Fragment) (initial : List String) : Nat :=
  initial.length + (referencedNames catalog).length + 1

/-- The loop of lines 93-99 over the reversed array: the bodies are appended to
`dependencyPrelude`, each followed by a line feed. -/
def concatBodies (catalog : List Fragment) (map : String → Option Nat) :
    List String → String → Outcome String
  | [], dependencyPrelude => Outcome.ok dependencyPrelude
  | dep :: rest, dependencyPrelude =>
    match map dep with
    | none =>
      Outcome.throws (JsError.typeError
        "Cannot read properties of undefined (reading \x27fn\x27)")
    | some position =>
      match catalog[position]? with
      | none =>
        Outcome.throws (JsError.typeError
          "Cannot read properties of undefined (reading \x27fn\x27)")
      | some entry => concatBodies catalog map rest (dependencyPrelude ++ (entry.fn ++ "\n"))

/-- Lines 85-93 for the entry `s` stored at position `current`: the array
`requiredDependencies` as it stands when the second loop starts, that is after
the expansion and after `reverse()`. -/
def resolveDependencies (catalog : List Fragment) (map : String → Option Nat)
    (current : Nat) (s : Fragment) : Outcome (List String) :=
  let requiredDependencies := s.dependencies.getD []
  match expandDependencies catalog map current s.dependencies.isSome
      (resolutionFuel catalog requiredDependencies) requiredDependencies 0 with
  | Outcome.ok expanded => Outcome.ok expanded.reverse
  | Outcome.throws e => Outcome.throws e
  | Outcome.outOfFuel => Outcome.outOfFuel

/-- The catalog after lines 85-93 have run for the entry `s` at position
`current` with final working array `reversed`: `push` and `reverse()` act on
`s.dependencies` itself when it is defined, and on a fresh array otherwise. -/
def writeBack (catalog : List Fragment) (current : Nat) (s : Fragment)
    (reversed : List String) : List Fragment :=
  if s.dependencies.isSome = true then
    catalog.set current { s with dependencies := some reversed }
  else catalog

/-- The sixty-four digits of base64. -/
def base64Digits : List Char :=
  "ABCDEFGHIJKLMNOPQRSTUVWXYZabcdefghijklmnopqrstuvwxyz0123456789+/".toList

/-- Digit for a six-bit value. -/
def base64Digit (n : Nat) : Char := base64Digits.getD n 'A'

/-- UTF-8 bytes of one character. -/
def utf8Bytes (c : Char) : List Nat :=
  let n := c.toNat
  if n < 128 then [n]
  else if n < 2048 then [192 + n / 64, 128 + n % 64]
  else if n < 65536 then [224 + n / 4096, 128 + (n / 64) % 64, 128 + n % 64]
  else [240 + n / 262144, 128 + (n / 4096) % 64, 128 + (n / 64) % 64, 128 + n % 64]

/-- Base64 of a byte sequence, with padding. -/
def base64Bytes : List Nat → List Char
  | [] => []
  | [a] => [base64Digit (a / 4), base64Digit (a % 4 * 16), '=', '=']
  | [a, b] =>
    [base64Digit (a / 4), base64Digit (a % 4 * 16 + b / 16), base64Digit (b % 16 * 4), '=']
  | a :: b :: c :: rest =>
    base64Digit (a / 4) :: base64Digit (a % 4 * 16 + b / 16) ::
      base64Digit (b % 16 * 4 + c / 64) :: base64Digit (c % 64) :: base64Bytes rest

/-- The expression `Buffer.from(text).toString(\x27base64\x27)`. -/
def toBase64 (text : String) : String :=
  String.mk (base64Bytes (text.toList.flatMap utf8Bytes))

/-- The test `s.name.endsWith(\x27.fn\x27)`. -/
def isPrivate (s : Fragment) : Bool :=
  ".fn".toList.isSuffixOf s.name.toList

/-- The callback of `map` on line 82 applied to the entry at position `current`:
the catalog as the callback leaves it, and the record it returns. -/
def transformScriptlet (catalog : List Fragment) (map : String → Option Nat)
    (current : Nat) : Outcome (List Fragment × ResourceEntry) :=
  match catalog[current]? with
  | none => Outcome.throws (JsError.typeError "no such entry")
  | some s =>
    match resolveDependencies catalog map current s with
    | Outcome.outOfFuel => Outcome.outOfFuel
    | Outcome.throws e => Outcome.throws e
    | Outcome.ok reversed =>
      let catalog1 := writeBack catalog current s reversed
      match concatBodies catalog1 map reversed "" with
      | Outcome.outOfFuel => Outcome.outOfFuel
      | Outcome.throws e => Outcome.throws e
      | Outcome.ok dependencyPrelude =>
        Outcome.ok (catalog1,
          { name := s.name
            aliases := s.aliases.getD []
            kind := Kind.mime "application/javascript"
            content := toBase64 (wrapScriptletArgFormat s.fn dependencyPrelude) })

/-- The `map` of line 82 over the positions that passed the `filter`, in order,
threading the catalog. -/
def mapScriptlets (map : String → Option Nat) :
    List Fragment → List Nat → Outcome (List Fragment × List ResourceEntry)
  | catalog, [] => Outcome.ok (catalog, [])
  | catalog, current :: rest =>
    match transformScriptlet catalog map current with
    | Outcome.outOfFuel => Outcome.outOfFuel
    | Outcome.throws e => Outcome.throws e
    | Outcome.ok (catalog1, entry) =>
      match mapScriptlets map catalog1 rest with
      | Outcome.outOfFuel => Outcome.outOfFuel
      | Outcome.throws e => Outcome.throws e
      | Outcome.ok (catalog2, entries) => Outcome.ok (catalog2, entry :: entries)

/-- Positions of the entries kept by `filter(s => !s.name.endsWith(\x27.fn\x27))`,
in catalog order. -/
def publicPositions (builtinScriptlets : List Fragment) : List Nat :=
  (List.range builtinScriptlets.length).filter (fun position =>
    match builtinScriptlets[position]? with
    | some s => !isPrivate s
    | none => false)

/-- The array `transformedUboBuiltins` together with the final catalog. -/
def transformUboBuiltins (builtinScriptlets : List Fragment) :
    Outcome (List Fragment × List ResourceEntry) :=
  mapScriptlets (dependencyMap builtinScriptlets) builtinScriptlets
    (publicPositions builtinScriptlets)

/-- The body of `generateResources`. `uBlockResources` is the array returned by
the call on line 110 and `braveResources` the result of awaiting
`requestJSON(braveResourcesUrl)` (a rejection being `Except.error`). The value
is the array `resourceData` handed to `JSON.stringify`. -/
def generateResources (builtinScriptlets : List Fragment)
    (uBlockResources : List ResourceEntry)
    (braveResources : Except JsError (List ResourceEntry)) : Outcome (List ResourceEntry) :=
  match transformUboBuiltins builtinScriptlets with
  | Outcome.outOfFuel => Outcome.outOfFuel
  | Outcome.throws e => Outcome.throws e
  | Outcome.ok (_, transformedUboBuiltins) =>
    match braveResources with
    | Except.error e => Outcome.throws e
    | Except.ok remote => Outcome.ok (uBlockResources ++ remote ++ transformedUboBuiltins)

/-- The catalog as it stands when the `map` callback reaches position `current`:
the callbacks of all earlier public positions have run. -/
def catalogBefore (builtinScriptlets : List Fragment) (current : Nat) :
    Outcome (List Fragment) :=
  match mapScriptlets (dependencyMap builtinScriptlets) builtinScriptlets
      ((publicPositions builtinScriptlets).filter (fun p => decide (p < current))) with
  | Outcome.outOfFuel => Outcome.outOfFuel
  | Outcome.throws e => Outcome.throws e
  | Outcome.ok (catalog, _) => Outcome.ok catalog

/-- The names whose bodies make up the prelude of the entry at position
`current` in a run of `generateResources`, in the order of concatenation. -/
def preludeNames (builtinScriptlets : List Fragment) (current : Nat) :
    Outcome (List String) :=
  match catalogBefore builtinScriptlets current with
  | Outcome.outOfFuel => Outcome.outOfFuel
  | Outcome.throws e => Outcome.throws e
  | Outcome.ok catalog =>
    match catalog[current]? with
    | none => Outcome.throws (JsError.typeError "no such entry")
    | some s => resolveDependencies catalog (dependencyMap builtinScriptlets) current s

/-- The catalog as the `map` callback for position `current` leaves it in a run
of `generateResources`. -/
def catalogAfter (builtinScriptlets : List Fragment) (current : Nat) :
    Outcome (List Fragment) :=
  match catalogBefore builtinScriptlets current with
  | Outcome.outOfFuel => Outcome.outOfFuel
  | Outcome.throws e => Outcome.throws e
  | Outcome.ok catalog =>
    match transformScriptlet catalog (dependencyMap builtinScriptlets) current with
    | Outcome.outOfFuel => Outcome.outOfFuel
    | Outcome.throws e => Outcome.throws e
    | Outcome.ok (catalog1, _) => Outcome.ok catalog1

/-- The body that `dependencyMap[dep].fn.toString()` yields for a name. -/
def bodyOf (catalog : List Fragment) (map : String → Option Nat) (dep : String) : String :=
  match map dep with
  | none => ""
  | some position =>
    match catalog[position]? with
    | none => ""
    | some entry => entry.fn

/-- Whether a run produced a value. -/
def Outcome.isOk {α : Type} : Outcome α → Bool
  | Outcome.ok _ => true
  | _ => false

/-! ## Vocabulary of the dependency graph -/

/-- The entry that `map` holds for `dependent` lists `dependency` in its
`dependencies` array. -/
def DependsOn (map : String → Option Nat) (catalog : List Fragment)
    (dependent dependency : String) : Prop :=
  ∃ position, map dependent = some position ∧ dependency ∈ dependenciesAt catalog position

/-- The name `target` can be reached from the entry at `position` through one or
more dependency edges. -/
def ReachableFrom (map : String → Option Nat) (catalog : List Fragment)
    (position : Nat) (target : String) : Prop :=
  ∃ d, d ∈ dependenciesAt catalog position ∧
    Relation.ReflTransGen (DependsOn map catalog) d target

/-- Every name in a `dependencies` array is the name of an entry of the catalog. -/
def AllPresent (catalog : List Fragment) : Prop :=
  ∀ name, name ∈ referencedNames catalog → name ∈ catalog.map Fragment.name

/-- The entry with its `dependencies` array emptied (kept `undefined` when it
was); two catalogs that agree after this differ in dependency arrays only. -/
def Fragment.shape (entry : Fragment) : Fragment :=
  { entry with dependencies := entry.dependencies.map (fun _ => []) }

/-- Loop invariant of `expandDependencies` started on `initial`: the working
array is `initial` followed by distinct names pushed later, every name visited
so far has its dependencies in the array, and every name of the array is a
dependency of `initial` at some depth. -/
structure ExpandInv (catalog : List Fragment) (map : String → Option Nat)
    (initial requiredDependencies : List String) (cursor : Nat) : Prop where
  pushed : ∃ extra, requiredDependencies = initial ++ extra ∧ extra.Nodup ∧
    ∀ x, x ∈ extra → x ∉ initial ∧ x ∈ referencedNames catalog
  cursor_le : cursor ≤ requiredDependencies.length
  closed : ∀ x, x ∈ requiredDependencies.take cursor →
    ∃ k, map x = some k ∧ ∀ y, y ∈ dependenciesAt catalog k → y ∈ requiredDependencies
  sound : ∀ x, x ∈ requiredDependencies →
    ∃ d, d ∈ initial ∧ Relation.ReflTransGen (DependsOn map catalog) d x

/-- The bodies of `names`, each followed by a line feed, in order. -/
def preludeText (catalog : List Fragment) (map : String → Option Nat) : List String → String
  | [] => ""
  | dep :: rest => (bodyOf catalog map dep ++ "\n") ++ preludeText catalog map rest

/-- Every position held by `map` is a position of the catalog, whose entry bears
the key as its name. -/
def MapValid (map : String → Option Nat) (catalog : List Fragment) : Prop :=
  ∀ key k, map key = some k → ∃ e, catalog[k]? = some e ∧ e.name = key

/-- The record that the `map` callback returns for `s` once its prelude is known. -/
def compiledEntry (s : Fragment) (dependencyPrelude : String) : ResourceEntry :=
  { name := s.name
    aliases := s.aliases.getD []
    kind := Kind.mime "application/javascript"
    content := toBase64 (wrapScriptletArgFormat s.fn dependencyPrelude) }

/-- Invariant of the `map` of line 82 over a run started on `original`: the
callbacks that have run (at the positions `done`) changed dependency arrays
only, left every other entry as it was, and kept what can be reached from
every entry. -/
structure RunInv (original catalog : List Fragment) (done : List Nat) : Prop where
  shape : catalog.map Fragment.shape = original.map Fragment.shape
  untouched : ∀ k, k ∉ done → catalog[k]? = original[k]?
  reach : ∀ k x, ReachableFrom (dependencyMap original) catalog k x ↔
    ReachableFrom (dependencyMap original) original k x

/-- What a successful expansion for the entry at position `p` of `original`
guarantees about the working array `expanded` (before `reverse()`): it is the
declared array followed by distinct names not in it, it holds exactly the
names reachable from the entry, and every name in it is in the catalog. -/
structure Resolution (original : List Fragment) (p : Nat) (expanded : List String) : Prop where
  pushed : ∃ extra, expanded = dependenciesAt original p ++ extra ∧ extra.Nodup ∧
    ∀ x, x ∈ extra → x ∉ dependenciesAt original p
  mem_iff : ∀ x, x ∈ expanded ↔ ReachableFrom (dependencyMap original) original p x
  present : ∀ x, x ∈ expanded → ∃ k, dependencyMap original x = some k

/-- The record `e` is what the run on `original` returns for position `p`. -/
def Compiled (original : List Fragment) (p : Nat) (e : ResourceEntry) : Prop :=
  ∃ s expanded, original[p]? = some s ∧ Resolution original p expanded ∧
    preludeNames original p = Outcome.ok expanded.reverse ∧
    e = compiledEntry s (preludeText original (dependencyMap original) expanded.reverse)

/-! ## Concrete catalogs -/

/-- A public scriptlet that declares `a.fn` and `b.fn`, where `b.fn` declares
`a.fn` too. -/
def diamondCatalog : List Fragment :=
  [ { name := "f.js", aliases := none, dependencies := some ["a.fn", "b.fn"], fn := "F" },
    { name := "a.fn", aliases := none, dependencies := none, fn := "A" },
    { name := "b.fn", aliases := none, dependencies := some ["a.fn"], fn := "B" } ]

/-- A public scriptlet whose `dependencies` array names `a.fn` twice. -/
def repeatedCatalog : List Fragment :=
  [ { name := "f.js", aliases := none, dependencies := some ["a.fn", "a.fn"], fn := "F" },
    { name := "a.fn", aliases := none, dependencies := none, fn := "A" } ]

/-- Two entries that declare each other. -/
def cycleCatalog : List Fragment :=
  [ { name := "a.js", aliases := none, dependencies := some ["b.fn"], fn := "A" },
    { name := "b.fn", aliases := none, dependencies := some ["a.js"], fn := "B" } ]

/-- A chain: `f.js` declares `a.fn`, which declares `b.fn`. -/
def chainCatalog : List Fragment :=
  [ { name := "f.js", aliases := some ["f"], dependencies := some ["a.fn"], fn := "F" },
    { name := "a.fn", aliases := none, dependencies := some ["b.fn"], fn := "A" },
    { name := "b.fn", aliases := none, dependencies := none, fn := "B" } ]

/-- A public scriptlet that declares a name no entry bears. -/
def danglingCatalog : List Fragment :=
  [ { name := "f.js", aliases := none, dependencies := some ["a.fn"], fn := "F" },
    { name := "a.fn", aliases := none, dependencies := some ["gone.fn"], fn := "A" } ]

/-- The entry `f.js` of `diamondCatalog`. -/
def diamondHead : Fragment :=
  { name := "f.js", aliases := none, dependencies := some ["a.fn", "b.fn"], fn := "F" }

/-- The entry `f.js` of `chainCatalog`. -/
def chainHead : Fragment :=
  { name := "f.js", aliases := some ["f"], dependencies := some ["a.fn"], fn := "F" }

/-- A static resource record. -/
def sampleStatic : ResourceEntry :=
  { name := "1x1.gif", aliases := [], kind := Kind.mime "image/gif", content := "R0lG" }

/-- A remote resource record. -/
def sampleRemote : ResourceEntry :=
  { name := "brave-fix.js", aliases := [], kind := Kind.template, content := "" }

/-- In `names` the first occurrence of `first` stands before every occurrence of
`second`. -/
def appearsBefore (names : List String) (first second : String) : Prop :=
  names.indexOf first < names.indexOf second

/-! ## `sanityCheckList` (lines 129-178) -/

/-- The corpus `sampleUnblockedNetworkRequests`; each element is
`[requestUrl, sourceUrl, requestType]`. -/
def sampleUnblockedNetworkRequests : List (String × String × String) :=
  [ ("https://antonok.com", "https://antonok.com", "document"),
    ("https://antonok.com/style.css?h=9aba43f4dd864e1e4f3a", "https://antonok.com", "stylesheet"),
    ("https://antonok.com/res/font/icons.woff2?h=598bc5b2aa7cdaf390d9", "https://antonok.com", "font"),
    ("https://antonok.com/res/antonok-logo.svg", "https://antonok.com", "image"),
    ("https://antonok.com/processed_images/profile-2021-05-03.14f955fe3ab1a230.webp", "https://antonok.com", "image"),
    ("https://brave.com", "https://brave.com", "document"),
    ("https://brave.com/js/navigation.js", "https://brave.com", "script"),
    ("https://brave.com/static-assets/css-old/main.min.css", "https://brave.com", "stylesheet"),
    ("https://brave.com/static-assets/images/brave-logo-sans-text.svg", "https://brave.com", "image"),
    ("https://dev-pages.brave.software/filtering/index.html", "https://dev-pages.brave.software/filtering/index.html", "document"),
    ("https://dev-pages.brave.software/static/css/bootstrap.min.css", "https://dev-pages.brave.software/filtering/index.html", "stylesheet"),
    ("https://dev-pages.brave.software/static/css/site.css", "https://dev-pages.brave.software/filtering/index.html", "stylesheet"),
    ("https://dev-pages.brave.software/static/js/site.js", "https://dev-pages.brave.software/filtering/index.html", "script"),
    ("https://dev-pages.bravesoftware.com/filtering/index.html", "https://dev-pages.bravesoftware.com/filtering/index.html", "document"),
    ("https://dev-pages.bravesoftware.com/static/images/test.jpg", "https://dev-pages.bravesoftware.com/filtering/additional-lists.html", "image"),
    ("https://en.wikipedia.org/wiki/Ad_blocking", "https://en.wikipedia.org/wiki/Ad_blocking", "document"),
    ("https://en.wikipedia.org/w/load.php?lang=en&modules=codex-search-styles%7Cext.cite.styles%7Cext.pygments%2CwikimediaBadges%7Cext.uls.interlanguage%7Cext.visualEditor.desktopArticleTarget.noscript%7Cskins.vector.icons%2Cstyles%7Cskins.vector.zebra.styles%7Cwikibase.client.init&only=styles&skin=vector-2022", "https://en.wikipedia.org/wiki/Ad_blocking", "stylesheet"),
    ("https://en.wikipedia.org/w/load.php?lang=en&modules=startup&only=scripts&raw=1&skin=vector-202", "https://en.wikipedia.org/wiki/Ad_blocking", "script"),
    ("https://en.wikipedia.org/static/images/mobile/copyright/wikipedia-wordmark-en.svg", "https://en.wikipedia.org/wiki/Ad_blocking", "image"),
    ("https://en.wikipedia.org/static/images/icons/wikipedia.png", "https://en.wikipedia.org/wiki/Ad_blocking", "image"),
    ("https://antonok.com", "https://example.com", "subdocument"),
    ("https://brave.com", "https://example.com", "subdocument"),
    ("https://en.wikipedia.org/wiki/Ad_blocking", "https://example.com", "subdocument") ]

/-- The argument `{ title, format, data }` of `sanityCheckList`. -/
structure FilterList where
  title : String
  format : String
  data : String
  deriving DecidableEq

/-- The text that `+` makes of the array `request`: its elements joined by commas. -/
def requestToString (request : String × String × String) : String :=
  request.1 ++ "," ++ request.2.1 ++ "," ++ request.2.2

/-- The message of the error thrown on line 175. -/
def sanityMessage (title : String) (request : String × String × String) : String :=
  title ++ " failed sanity check for " ++ requestToString request ++
    ". Check for corrupted list contents."

/-- The loop of lines 172-177 over the requests still to be checked; `check` is
`engine.check`. -/
def checkRequests (check : String → String → String → Bool) (title : String) :
    List (String × String × String) → Except JsError Unit
  | [] => Except.ok ()
  | request :: rest =>
    if check request.1 request.2.1 request.2.2 = true then
      Except.error (JsError.error (sanityMessage title request))
    else checkRequests check title rest

/-- The function `sanityCheckList`. The engine of `adblock-rs` is a parameter:
`engine rules format` is the `check` method of the `Engine` built from the
filter set to which `rules` were added with `{ format }`. -/
def sanityCheckList (engine : List String → String → String → String → String → Bool)
    (list : FilterList) : Except JsError Unit :=
  checkRequests (engine (list.data.splitOn "\n") list.format) list.title
    sampleUnblockedNetworkRequests

/-- The request that the check function blocks first, in corpus order. -/
def firstBlocked (check : String → String → String → Bool) :
    Option (String × String × String) :=
  sampleUnblockedNetworkRequests.find? (fun request => check request.1 request.2.1 request.2.2)

/-- An engine that blocks every request. -/
def blockAll : List String → String → String → String → String → Bool :=
  fun _ _ _ _ _ => true

/-- A filter list used as a concrete input. -/
def sampleList : FilterList :=
  { title := "Sample List", format := "standard", data := "||example.org^" }

/-! ## `getDefaultLists` and `getRegionalLists` (lines 50-58) -/

/-- The values a field of a parsed JSON record can hold, as far as their
truthiness goes (`undefined` for a field that is not there). -/
inductive JsValue where
  | undefined
  | null
  | bool (b : Bool)
  | number (n : Int)
  | string (s : String)
  | object
  deriving DecidableEq

/-- The conversion to a boolean that `&&`, `!` and `filter` apply. -/
def JsValue.truthy : JsValue → Bool
  | JsValue.undefined => false
  | JsValue.null => false
  | JsValue.bool b => b
  | JsValue.number n => decide (n ≠ 0)
  | JsValue.string s => decide (s ≠ "")
  | JsValue.object => true

/-- The operator `&&`: the left operand when it is falsy, else the right one. -/
def JsValue.and (a b : JsValue) : JsValue :=
  if a.truthy = true then b else a

/-- One record of the list catalog. -/
structure ListEntry where
  uuid : String
  default_enabled : JsValue
  hidden : JsValue
  deriving DecidableEq

/-- The function `isDefaultList`. -/
def isDefaultList (entry : ListEntry) : JsValue :=
  entry.default_enabled.and entry.hidden

/-- The function `getDefaultLists`, applied to the catalog that
`getListCatalog()` resolves with. -/
def getDefaultLists (catalog : List ListEntry) : List ListEntry :=
  catalog.filter (fun entry => (isDefaultList entry).truthy)

/-- The function `getRegionalLists`, applied to the catalog that
`getListCatalog()` resolves with. -/
def getRegionalLists (catalog : List ListEntry) : List ListEntry :=
  catalog.filter (fun entry => !(isDefaultList entry).truthy)

/-! ## `lazyInit` (lines 38-48) and `requestJSON` (lines 27-36) -/

/-- One call of the function returned by `lazyInit(fn)`. The closure variable
`prom` is `none` while it is `undefined`; `fn` acts on a world `W` (everything
outside the closure that a call of `fn` can change) and returns a value. The
result is the returned value, the new `prom` and the new world. -/
def lazyInit {α W : Type} (truthy : α → Bool) (fn : W → α × W) (prom : Option α) (world : W) :
    α × Option α × W :=
  match prom with
  | some p =>
    if truthy p = true then (p, some p, world)
    else ((fn world).1, some (fn world).1, (fn world).2)
  | none => ((fn world).1, some (fn world).1, (fn world).2)

/-- A sequence of `n` calls of the function returned by `lazyInit(fn)`: the
values returned, in order, then the final `prom` and world. -/
def lazyCalls {α W : Type} (truthy : α → Bool) (fn : W → α × W) :
    Nat → Option α → W → List α × Option α × W
  | 0, prom, world => ([], prom, world)
  | n + 1, prom, world =>
    let first := lazyInit truthy fn prom world
    let others := lazyCalls truthy fn n first.2.1 first.2.2
    (first.1 :: others.1, others.2.1, others.2.2)

/-- The initializer `fn` made to count its own invocations. -/
def counted {α W : Type} (fn : W → α × W) : W × Nat → α × (W × Nat) :=
  fun state => ((fn state.1).1, ((fn state.1).2, state.2 + 1))

/-- The constant `listCatalogUrl`. -/
def listCatalogUrl : String :=
  "https://raw.githubusercontent.com/deepakdahiya/adblock-resources/master/filter_lists/list_catalog.json"

/-- The constant `braveResourcesUrl`. -/
def braveResourcesUrl : String :=
  "https://raw.githubusercontent.com/deepakdahiya/adblock-resources/master/dist/resources.json"

/-- What `fetch` and `response.json()` give for a URL: a transport error, or a
status with its text and the parsed body (or the message of the parse error). -/
structure Response (β : Type) where
  status : Nat
  statusText : String
  json : Except String β

/-- The function `requestJSON`: the settled value of the promise it returns. -/
def requestJSON {β : Type} (network : String → Except String (Response β)) (url : String) :
    Except JsError β :=
  match network url with
  | Except.error message =>
    Except.error (JsError.error ("Error when fetching " ++ url ++ ": " ++ message))
  | Except.ok response =>
    if response.status ≠ 200 then
      Except.error (JsError.error ("Error when fetching " ++ url ++ ": " ++
        ("Error status " ++ toString response.status ++ " " ++ response.statusText ++
          " returned for URL: " ++ url)))
    else
      match response.json with
      | Except.ok body => Except.ok body
      | Except.error message =>
        Except.error (JsError.error ("Error when fetching " ++ url ++ ": " ++ message))

/-- The initializer passed to `lazyInit` on line 46; the world is the list of
URLs fetched so far. -/
def listCatalogInit {β : Type} (network : String → Except String (Response β)) :
    List String → Except JsError β × List String :=
  fun fetched => (requestJSON network listCatalogUrl, fetched ++ [listCatalogUrl])

/-- The initializer passed to `lazyInit` on line 74; the world is the list of
URLs fetched so far. The fetch of line 115 is reached only when the scriptlets
were transformed without a throw. -/
def generateResourcesInit (builtinScriptlets : List Fragment)
    (uBlockResources : List ResourceEntry)
    (network : String → Except String (Response (List ResourceEntry))) :
    List String → Outcome (List ResourceEntry) × List String :=
  fun fetched =>
    match transformUboBuiltins builtinScriptlets with
    | Outcome.ok _ =>
      (generateResources builtinScriptlets uBlockResources
        (requestJSON network braveResourcesUrl), fetched ++ [braveResourcesUrl])
    | Outcome.throws e => (Outcome.throws e, fetched)
    | Outcome.outOfFuel => (Outcome.outOfFuel, fetched)

/-- A promise is an object, hence truthy, whatever it settles to. -/
def promiseTruthy {α : Type} : α → Bool := fun _ => true

/-- A network that answers every request with status 200 and an empty array. -/
def emptyNetwork {β : Type} : String → Except String (Response (List β)) :=
  fun _ => Except.ok { status := 200, statusText := "OK", json := Except.ok [] }

/-- A catalog of three lists. -/
def sampleListCatalog : List ListEntry :=
  [ { uuid := "default", default_enabled := JsValue.bool true, hidden := JsValue.bool true },
    { uuid := "regional-fr", default_enabled := JsValue.bool false, hidden := JsValue.bool false },
    { uuid := "cookie", default_enabled := JsValue.bool true, hidden := JsValue.undefined } ]

/-! ## Theorems -/

theorem buildDependencyMap_some (l : List Fragment) :
    ∀ (p : Nat) (m : String → Option Nat) (key : String) (k : Nat),
      buildDependencyMap l p m key = some k →
      m key = some k ∨ (p ≤ k ∧ ∃ e, l[k - p]? = some e ∧ e.name = key) := by
  induction l with
  | nil => intro p m key k h; exact Or.inl h
  | cons e rest ih =>
    intro p m key k h
    simp only [buildDependencyMap] at h
    rcases ih _ _ _ _ h with h1 | ⟨hle, e1, he1, hn⟩
    · by_cases hk : key = e.name
      · simp only [hk, if_true] at h1
        right
        injection h1 with h1
        subst h1
        exact ⟨le_refl _, e, by simp, hk.symm⟩
      · simp only [hk, if_false] at h1
        exact Or.inl h1
    · right
      refine ⟨by omega, e1, ?_, hn⟩
      have : k - p = (k - (p + 1)) + 1 := by omega
      rw [this]
      simpa using he1

theorem buildDependencyMap_none (l : List Fragment) :
    ∀ (p : Nat) (m : String → Option Nat) (key : String),
      buildDependencyMap l p m key = none ↔
      (m key = none ∧ key ∉ l.map Fragment.name) := by
  induction l with
  | nil => intro p m key; simp [buildDependencyMap]
  | cons e rest ih =>
    intro p m key
    simp only [buildDependencyMap]
    rw [ih]
    by_cases hk : key = e.name
    · simp [hk]
    · simp [hk]

theorem buildDependencyMap_congr (l : List Fragment) :
    ∀ (l2 : List Fragment) (p : Nat) (m : String → Option Nat),
      l.map Fragment.name = l2.map Fragment.name →
      buildDependencyMap l p m = buildDependencyMap l2 p m := by
  induction l with
  | nil =>
    intro l2 p m h
    cases l2 with
    | nil => rfl
    | cons _ _ => simp at h
  | cons e rest ih =>
    intro l2 p m h
    cases l2 with
    | nil => simp at h
    | cons e2 rest2 =>
      simp only [List.map_cons, List.cons.injEq] at h
      simp only [buildDependencyMap, h.1]
      exact ih _ _ _ h.2

theorem dependencyMap_some {cat : List Fragment} {key : String} {k : Nat}
    (h : dependencyMap cat key = some k) : ∃ e, cat[k]? = some e ∧ e.name = key := by
  rcases buildDependencyMap_some cat 0 _ key k h with h1 | ⟨_, e, he, hn⟩
  · simp at h1
  · exact ⟨e, by simpa using he, hn⟩

theorem dependencyMap_none {cat : List Fragment} {key : String} :
    dependencyMap cat key = none ↔ key ∉ cat.map Fragment.name := by
  unfold dependencyMap
  rw [buildDependencyMap_none]
  simp

theorem pushMissing_spec (inner : List String) :
    ∀ req : List String, ∃ extra : List String,
      pushMissing req inner = req ++ extra ∧ extra.Nodup ∧
      (∀ x, x ∈ extra → x ∈ inner ∧ x ∉ req) ∧
      (∀ x, x ∈ inner → x ∈ req ∨ x ∈ extra) := by
  induction inner with
  | nil => intro req; exact ⟨[], by simp [pushMissing]⟩
  | cons r rest ih =>
    intro req
    simp only [pushMissing]
    by_cases hr : r ∈ req
    · have hc : req.contains r = true := by simpa using hr
      rw [if_pos hc]
      obtain ⟨extra, h1, h2, h3, h4⟩ := ih req
      refine ⟨extra, h1, h2, ?_, ?_⟩
      · intro x hx
        exact ⟨List.mem_cons_of_mem _ (h3 x hx).1, (h3 x hx).2⟩
      · intro x hx
        rcases List.mem_cons.1 hx with rfl | hx
        · exact Or.inl hr
        · exact h4 x hx
    · have hc : ¬ (req.contains r = true) := by simpa using hr
      rw [if_neg hc]
      obtain ⟨extra, h1, h2, h3, h4⟩ := ih (req ++ [r])
      refine ⟨r :: extra, ?_, ?_, ?_, ?_⟩
      · rw [h1]; simp
      · refine List.nodup_cons.2 ⟨?_, h2⟩
        intro hmem
        exact (h3 r hmem).2 (by simp)
      · intro x hx
        rcases List.mem_cons.1 hx with rfl | hx
        · exact ⟨by simp, hr⟩
        · refine ⟨List.mem_cons_of_mem _ (h3 x hx).1, ?_⟩
          intro hxr
          exact (h3 x hx).2 (List.mem_append_left _ hxr)
      · intro x hx
        rcases List.mem_cons.1 hx with rfl | hx
        · right; simp
        · rcases h4 x hx with h | h
          · rcases List.mem_append.1 h with h | h
            · exact Or.inl h
            · right
              have : x = r := by simpa using h
              simp [this]
          · right; exact List.mem_cons_of_mem _ h

theorem pushMissing_of_subset (inner req : List String) (h : ∀ x, x ∈ inner → x ∈ req) :
    pushMissing req inner = req := by
  obtain ⟨extra, h1, _, h3, _⟩ := pushMissing_spec inner req
  cases extra with
  | nil => simpa using h1
  | cons x rest =>
    exact absurd (h x (h3 x (by simp)).1) (h3 x (by simp)).2

theorem referencedNames_mem {cat : List Fragment} {k : Nat} {x : String}
    (h : x ∈ dependenciesAt cat k) : x ∈ referencedNames cat := by
  unfold dependenciesAt at h
  cases hk : cat[k]? with
  | none => simp [hk] at h
  | some e =>
    simp only [hk] at h
    unfold referencedNames
    exact List.mem_flatMap.2 ⟨e, List.getElem?_mem hk, h⟩

theorem ExpandInv.length_le {cat : List Fragment} {map : String → Option Nat}
    {initial req : List String} {cursor : Nat} (h : ExpandInv cat map initial req cursor) :
    req.length ≤ initial.length + (referencedNames cat).length := by
  obtain ⟨extra, h1, h2, h3⟩ := h.pushed
  have hsub : extra ⊆ referencedNames cat := fun x hx => (h3 x hx).2
  have := (List.subperm_of_subset h2 hsub).length_le
  rw [h1, List.length_append]
  omega

theorem expandDependencies_spec (cat : List Fragment) (map : String → Option Nat)
    (i : Nat) (aliased : Bool) (initial : List String)
    (halias : aliased = true → dependenciesAt cat i = initial) :
    ∀ (fuel : Nat) (req : List String) (cursor : Nat),
      ExpandInv cat map initial req cursor →
      initial.length + (referencedNames cat).length + 1 ≤ fuel + cursor →
      (∃ L, expandDependencies cat map i aliased fuel req cursor = Outcome.ok L ∧
        ExpandInv cat map initial L L.length) ∨
      (∃ e x, expandDependencies cat map i aliased fuel req cursor = Outcome.throws e ∧
        (∃ d, d ∈ initial ∧ Relation.ReflTransGen (DependsOn map cat) d x) ∧
        map x = none) := by
  intro fuel
  induction fuel with
  | zero =>
    intro req cursor hinv hfuel
    have h1 := hinv.length_le
    have h2 := hinv.cursor_le
    omega
  | succ fuel ih =>
    intro req cursor hinv hfuel
    unfold expandDependencies
    cases hget : req[cursor]? with
    | none =>
      left
      refine ⟨req, rfl, ?_⟩
      have hlen : req.length ≤ cursor := by
        simpa using hget
      have hcur := hinv.cursor_le
      have : cursor = req.length := by omega
      rw [← this]
      exact hinv
    | some dep =>
      have hlt : cursor < req.length := by
        rcases List.getElem?_eq_some.1 hget with ⟨h, _⟩
        exact h
      have hdep : dep ∈ req := List.getElem?_mem hget
      simp only []
      cases hmap : map dep with
      | none =>
        right
        exact ⟨_, dep, rfl, hinv.sound dep hdep, hmap⟩
      | some k =>
        simp only []
        obtain ⟨extra2, hpush, hnd2, hnew, hcover⟩ :=
          pushMissing_spec (liveDependencies cat i aliased req k) req
        rw [hpush]
        -- facts on the array that was read
        have hlive : ∀ x, x ∈ extra2 → x ∈ dependenciesAt cat k := by
          intro x hx
          have hx1 := (hnew x hx).1
          unfold liveDependencies at hx1
          by_cases hc : k = i ∧ aliased = true
          · rw [if_pos hc] at hx1
            exact absurd hx1 (hnew x hx).2
          · rw [if_neg hc] at hx1
            exact hx1
        have hclosedk : ∀ y, y ∈ dependenciesAt cat k → y ∈ req ++ extra2 := by
          intro y hy
          by_cases hc : k = i ∧ aliased = true
          · obtain ⟨extra, h1, _, _⟩ := hinv.pushed
            have : y ∈ initial := by
              rw [← halias hc.2, ← hc.1]; exact hy
            rw [h1]
            exact List.mem_append_left _ (List.mem_append_left _ this)
          · have : y ∈ liveDependencies cat i aliased req k := by
              unfold liveDependencies
              rw [if_neg hc]; exact hy
            rcases hcover y this with h | h
            · exact List.mem_append_left _ h
            · exact List.mem_append_right _ h
        apply ih
        · constructor
          · obtain ⟨extra, h1, h2, h3⟩ := hinv.pushed
            refine ⟨extra ++ extra2, by rw [h1, List.append_assoc], ?_, ?_⟩
            · refine List.nodup_append.2 ⟨h2, hnd2, ?_⟩
              intro x hx hx2
              exact (hnew x hx2).2 (by rw [h1]; exact List.mem_append_right _ hx)
            · intro x hx
              rcases List.mem_append.1 hx with hx | hx
              · exact h3 x hx
              · refine ⟨?_, referencedNames_mem (hlive x hx)⟩
                intro hxi
                exact (hnew x hx).2 (by rw [h1]; exact List.mem_append_left _ hxi)
          · rw [List.length_append]; omega
          · intro x hx
            rw [List.take_append_of_le_length (by omega), List.take_succ, hget] at hx
            rcases List.mem_append.1 hx with hx | hx
            · obtain ⟨k2, hk2, hc2⟩ := hinv.closed x hx
              exact ⟨k2, hk2, fun y hy => List.mem_append_left _ (hc2 y hy)⟩
            · have : x = dep := by simpa using hx
              subst this
              exact ⟨k, hmap, hclosedk⟩
          · intro x hx
            rcases List.mem_append.1 hx with hx | hx
            · exact hinv.sound x hx
            · obtain ⟨d, hd, hrt⟩ := hinv.sound dep hdep
              exact ⟨d, hd, Relation.ReflTransGen.tail hrt ⟨k, hmap, hlive x hx⟩⟩
        · omega

theorem expandDependencies_fuel_mono (cat : List Fragment) (map : String → Option Nat)
    (i : Nat) (aliased : Bool) :
    ∀ (fuel more : Nat) (req : List String) (cursor : Nat),
      expandDependencies cat map i aliased fuel req cursor ≠ Outcome.outOfFuel →
      expandDependencies cat map i aliased (fuel + more) req cursor =
        expandDependencies cat map i aliased fuel req cursor := by
  intro fuel
  induction fuel with
  | zero =>
    intro more req cursor h
    exact absurd rfl h
  | succ fuel ih =>
    intro more req cursor h
    have e : fuel + 1 + more = (fuel + more) + 1 := by omega
    rw [e]
    unfold expandDependencies at h ⊢
    cases hget : req[cursor]? with
    | none => rfl
    | some dep =>
      rw [hget] at h
      simp only [] at h ⊢
      cases hmap : map dep with
      | none => rfl
      | some k =>
        rw [hmap] at h
        simp only [] at h ⊢
        exact ih more _ _ h

theorem dependenciesAt_of_getElem? {st : List Fragment} {i : Nat} {s : Fragment}
    (hs : st[i]? = some s) : dependenciesAt st i = s.dependencies.getD [] := by
  unfold dependenciesAt
  rw [hs]

theorem ExpandInv.initial {st : List Fragment} {map : String → Option Nat}
    (initial : List String) : ExpandInv st map initial initial 0 := by
  constructor
  · exact ⟨[], by simp⟩
  · exact Nat.zero_le _
  · intro x hx
    simp at hx
  · intro x hx
    exact ⟨x, hx, Relation.ReflTransGen.refl⟩

theorem ExpandInv.mem_iff {st : List Fragment} {map : String → Option Nat}
    {i : Nat} {L : List String}
    (h : ExpandInv st map (dependenciesAt st i) L L.length) (x : String) :
    x ∈ L ↔ ReachableFrom map st i x := by
  constructor
  · intro hx
    exact h.sound x hx
  · rintro ⟨d, hd, hrt⟩
    induction hrt with
    | refl =>
      obtain ⟨extra, h1, _, _⟩ := h.pushed
      rw [h1]
      exact List.mem_append_left _ hd
    | tail _ hstep ih =>
      obtain ⟨k, hk, hmem⟩ := hstep
      obtain ⟨k2, hk2, hc⟩ := h.closed _ (by rw [List.take_length]; exact ih)
      rw [hk] at hk2
      injection hk2 with hk2
      subst hk2
      exact hc _ hmem

theorem ExpandInv.present {st : List Fragment} {map : String → Option Nat}
    {initial L : List String}
    (h : ExpandInv st map initial L L.length) (x : String) (hx : x ∈ L) :
    ∃ k, map x = some k := by
  obtain ⟨k, hk, _⟩ := h.closed x (by rw [List.take_length]; exact hx)
  exact ⟨k, hk⟩

theorem resolveDependencies_spec (st : List Fragment) (map : String → Option Nat)
    (i : Nat) (s : Fragment) (hs : st[i]? = some s) :
    (∃ L, resolveDependencies st map i s = Outcome.ok L.reverse ∧
      ExpandInv st map (dependenciesAt st i) L L.length) ∨
    (∃ e x, resolveDependencies st map i s = Outcome.throws e ∧
      ReachableFrom map st i x ∧ map x = none) := by
  have hinit := dependenciesAt_of_getElem? hs
  unfold resolveDependencies
  simp only []
  rcases expandDependencies_spec st map i s.dependencies.isSome (s.dependencies.getD [])
      (fun _ => hinit) (resolutionFuel st (s.dependencies.getD [])) (s.dependencies.getD []) 0
      (ExpandInv.initial _) (by unfold resolutionFuel; omega) with
    ⟨L, hL, hinv⟩ | ⟨e, x, he, hr, hx⟩
  · left
    refine ⟨L, ?_, ?_⟩
    · rw [hL]
    · rw [hinit]; exact hinv
  · right
    refine ⟨e, x, ?_, ?_, hx⟩
    · rw [he]
    · unfold ReachableFrom
      rw [hinit]; exact hr

theorem writeBack_getElem? {st : List Fragment} {i : Nat} {s : Fragment}
    (hs : st[i]? = some s) (rev : List String) (k : Nat) :
    (writeBack st i s rev)[k]? =
      if k = i ∧ s.dependencies.isSome = true then
        some { s with dependencies := some rev }
      else st[k]? := by
  have hlt : i < st.length := by
    rcases List.getElem?_eq_some.1 hs with ⟨h, _⟩
    exact h
  unfold writeBack
  by_cases ha : s.dependencies.isSome = true
  · rw [if_pos ha]
    by_cases hk : k = i
    · subst hk
      rw [if_pos ⟨rfl, ha⟩]
      rw [List.getElem?_set]
      simp [hlt]
    · rw [if_neg (fun h => hk h.1)]
      rw [List.getElem?_set]
      rw [if_neg (fun h => hk h.symm)]
  · rw [if_neg ha, if_neg (fun h => ha h.2)]

theorem dependenciesAt_writeBack {st : List Fragment} {i : Nat} {s : Fragment}
    (hs : st[i]? = some s) (rev : List String) (k : Nat) :
    dependenciesAt (writeBack st i s rev) k =
      if k = i ∧ s.dependencies.isSome = true then rev else dependenciesAt st k := by
  unfold dependenciesAt
  rw [writeBack_getElem? hs]
  by_cases h : k = i ∧ s.dependencies.isSome = true
  · rw [if_pos h, if_pos h]
    rfl
  · rw [if_neg h, if_neg h]

theorem writeBack_shape {st : List Fragment} {i : Nat} {s : Fragment}
    (hs : st[i]? = some s) (rev : List String) :
    (writeBack st i s rev).map Fragment.shape = st.map Fragment.shape := by
  apply List.ext_getElem?
  intro k
  rw [List.getElem?_map, List.getElem?_map, writeBack_getElem? hs]
  by_cases h : k = i ∧ s.dependencies.isSome = true
  · rw [if_pos h, h.1, hs]
    simp only [Option.map_some']
    congr 1
    unfold Fragment.shape
    cases hd : s.dependencies with
    | none => rw [hd] at h; simp at h
    | some d => rfl
  · rw [if_neg h]

theorem shape_getElem? {st cat0 : List Fragment}
    (h : st.map Fragment.shape = cat0.map Fragment.shape) {k : Nat} {e0 : Fragment}
    (hk : cat0[k]? = some e0) :
    ∃ e, st[k]? = some e ∧ e.name = e0.name ∧ e.aliases = e0.aliases ∧ e.fn = e0.fn ∧
      e.dependencies.isSome = e0.dependencies.isSome := by
  have h1 : (st.map Fragment.shape)[k]? = (cat0.map Fragment.shape)[k]? := by rw [h]
  rw [List.getElem?_map, List.getElem?_map, hk] at h1
  cases hst : st[k]? with
  | none => rw [hst] at h1; simp at h1
  | some e =>
    rw [hst] at h1
    simp only [Option.map_some', Option.some.injEq] at h1
    refine ⟨e, rfl, ?_, ?_, ?_, ?_⟩
    · have := congrArg Fragment.name h1
      simpa [Fragment.shape] using this
    · have := congrArg Fragment.aliases h1
      simpa [Fragment.shape] using this
    · have := congrArg Fragment.fn h1
      simpa [Fragment.shape] using this
    · have := congrArg (fun f => f.dependencies.isSome) h1
      simpa [Fragment.shape] using this

theorem MapValid.of_shape {st cat0 : List Fragment}
    (h : st.map Fragment.shape = cat0.map Fragment.shape) :
    MapValid (dependencyMap cat0) st := by
  intro key k hk
  obtain ⟨e0, he0, hn⟩ := dependencyMap_some hk
  obtain ⟨e, he, hname, _⟩ := shape_getElem? h he0
  exact ⟨e, he, by rw [hname, hn]⟩

theorem bodyOf_shape {st cat0 : List Fragment} (map : String → Option Nat)
    (h : st.map Fragment.shape = cat0.map Fragment.shape) (x : String) :
    bodyOf st map x = bodyOf cat0 map x := by
  unfold bodyOf
  cases hm : map x with
  | none => rfl
  | some k =>
    simp only []
    cases h0 : cat0[k]? with
    | none =>
      have h1 : (st.map Fragment.shape)[k]? = (cat0.map Fragment.shape)[k]? := by rw [h]
      rw [List.getElem?_map, List.getElem?_map, h0] at h1
      cases hst : st[k]? with
      | none => rfl
      | some e => rw [hst] at h1; simp at h1
    | some e0 =>
      obtain ⟨e, he, _, _, hfn, _⟩ := shape_getElem? h h0
      rw [he]
      exact hfn

theorem preludeText_shape {st cat0 : List Fragment} (map : String → Option Nat)
    (h : st.map Fragment.shape = cat0.map Fragment.shape) (names : List String) :
    preludeText st map names = preludeText cat0 map names := by
  induction names with
  | nil => rfl
  | cons x rest ih => simp only [preludeText, ih, bodyOf_shape map h]

theorem concatBodies_spec (st : List Fragment) (map : String → Option Nat)
    (hv : MapValid map st) :
    ∀ (names : List String) (acc : String), (∀ x, x ∈ names → ∃ k, map x = some k) →
      concatBodies st map names acc = Outcome.ok (acc ++ preludeText st map names) := by
  intro names
  induction names with
  | nil =>
    intro acc _
    simp [concatBodies, preludeText]
  | cons x rest ih =>
    intro acc hp
    obtain ⟨k, hk⟩ := hp x (by simp)
    obtain ⟨e, he, _⟩ := hv x k hk
    simp only [concatBodies, hk, he, preludeText, bodyOf]
    rw [ih _ (fun y hy => hp y (List.mem_cons_of_mem _ hy))]
    rw [String.append_assoc]

theorem reachable_writeBack {st : List Fragment} {map : String → Option Nat}
    {i : Nat} {s : Fragment} (hs : st[i]? = some s) {L : List String}
    (hinv : ExpandInv st map (dependenciesAt st i) L L.length) (k : Nat) (x : String) :
    ReachableFrom map (writeBack st i s L.reverse) k x ↔ ReachableFrom map st k x := by
  have hinitL : ∀ y, y ∈ dependenciesAt st i → y ∈ L := by
    intro y hy
    obtain ⟨extra, h1, _, _⟩ := hinv.pushed
    rw [h1]; exact List.mem_append_left _ hy
  have ha : ∀ k y, y ∈ dependenciesAt st k →
      y ∈ dependenciesAt (writeBack st i s L.reverse) k := by
    intro k y hy
    rw [dependenciesAt_writeBack hs]
    by_cases h : k = i ∧ s.dependencies.isSome = true
    · rw [if_pos h]
      rw [h.1] at hy
      exact List.mem_reverse.2 (hinitL y hy)
    · rw [if_neg h]; exact hy
  have hb : ∀ k y, y ∈ dependenciesAt (writeBack st i s L.reverse) k →
      ReachableFrom map st k y := by
    intro k y hy
    rw [dependenciesAt_writeBack hs] at hy
    by_cases h : k = i ∧ s.dependencies.isSome = true
    · rw [if_pos h] at hy
      rw [h.1]
      exact hinv.sound y (List.mem_reverse.1 hy)
    · rw [if_neg h] at hy
      exact ⟨y, hy, Relation.ReflTransGen.refl⟩
  have hc : ∀ a b, Relation.ReflTransGen (DependsOn map st) a b →
      Relation.ReflTransGen (DependsOn map (writeBack st i s L.reverse)) a b := by
    intro a b hab
    induction hab with
    | refl => exact Relation.ReflTransGen.refl
    | tail _ hstep ih =>
      obtain ⟨k2, hk2, hm⟩ := hstep
      exact Relation.ReflTransGen.tail ih ⟨k2, hk2, ha _ _ hm⟩
  have hd : ∀ a b, Relation.ReflTransGen (DependsOn map (writeBack st i s L.reverse)) a b →
      Relation.ReflTransGen (DependsOn map st) a b := by
    intro a b hab
    induction hab with
    | refl => exact Relation.ReflTransGen.refl
    | @tail u v _ hstep ih =>
      obtain ⟨k2, hk2, hm⟩ := hstep
      obtain ⟨d, hd1, hd2⟩ := hb _ _ hm
      exact Relation.ReflTransGen.trans ih
        (Relation.ReflTransGen.head ⟨k2, hk2, hd1⟩ hd2)
  constructor
  · rintro ⟨d, hd1, hd2⟩
    obtain ⟨d0, hd0, hd01⟩ := hb _ _ hd1
    exact ⟨d0, hd0, Relation.ReflTransGen.trans hd01 (hd _ _ hd2)⟩
  · rintro ⟨d, hd1, hd2⟩
    exact ⟨d, ha _ _ hd1, hc _ _ hd2⟩

theorem transformScriptlet_spec (st : List Fragment) (map : String → Option Nat)
    (hv : MapValid map st) (i : Nat) (s : Fragment) (hs : st[i]? = some s) :
    (∃ L, ExpandInv st map (dependenciesAt st i) L L.length ∧
      resolveDependencies st map i s = Outcome.ok L.reverse ∧
      transformScriptlet st map i =
        Outcome.ok (writeBack st i s L.reverse,
          compiledEntry s (preludeText st map L.reverse))) ∨
    (∃ e x, transformScriptlet st map i = Outcome.throws e ∧
      resolveDependencies st map i s = Outcome.throws e ∧
      ReachableFrom map st i x ∧ map x = none) := by
  rcases resolveDependencies_spec st map i s hs with ⟨L, hL, hinv⟩ | ⟨e, x, he, hr, hx⟩
  · left
    refine ⟨L, hinv, hL, ?_⟩
    have hshape := writeBack_shape hs L.reverse
    have hv2 : MapValid map (writeBack st i s L.reverse) := by
      intro key k hk
      obtain ⟨e, he, hn⟩ := hv key k hk
      obtain ⟨e2, he2, hn2, _⟩ := shape_getElem? hshape he
      exact ⟨e2, he2, by rw [hn2, hn]⟩
    unfold transformScriptlet
    simp only [hs, hL]
    rw [concatBodies_spec _ map hv2 L.reverse "" ?_]
    · simp only [String.empty_append, preludeText_shape map hshape]
      rfl
    · intro y hy
      exact hinv.present y (List.mem_reverse.1 hy)
  · right
    refine ⟨e, x, ?_, he, hr, hx⟩
    unfold transformScriptlet
    simp only [hs, he]

theorem mapScriptlets_append (map : String → Option Nat) (l1 : List Nat) :
    ∀ (st st1 st2 : List Fragment) (es1 es2 : List ResourceEntry) (l2 : List Nat),
      mapScriptlets map st l1 = Outcome.ok (st1, es1) →
      mapScriptlets map st1 l2 = Outcome.ok (st2, es2) →
      mapScriptlets map st (l1 ++ l2) = Outcome.ok (st2, es1 ++ es2) := by
  induction l1 with
  | nil =>
    intro st st1 st2 es1 es2 l2 h1 h2
    simp only [mapScriptlets, Outcome.ok.injEq, Prod.mk.injEq] at h1
    obtain ⟨rfl, rfl⟩ := h1
    simpa using h2
  | cons p rest ih =>
    intro st st1 st2 es1 es2 l2 h1 h2
    simp only [mapScriptlets, List.cons_append] at h1 ⊢
    cases ht : transformScriptlet st map p with
    | outOfFuel => rw [ht] at h1; simp at h1
    | throws e => rw [ht] at h1; simp at h1
    | ok v =>
      obtain ⟨sta, e⟩ := v
      rw [ht] at h1
      simp only [] at h1 ⊢
      cases hr : mapScriptlets map sta rest with
      | outOfFuel => rw [hr] at h1; simp at h1
      | throws e => rw [hr] at h1; simp at h1
      | ok w =>
        obtain ⟨stb, es⟩ := w
        rw [hr] at h1
        simp only [Outcome.ok.injEq, Prod.mk.injEq] at h1
        obtain ⟨rfl, rfl⟩ := h1
        have hih := ih sta stb st2 es es2 l2 hr h2
        simp only [List.append_eq]
        rw [hih]
        simp

theorem mapScriptlets_snoc (map : String → Option Nat) (l1 : List Nat) (p : Nat)
    (st st1 st2 : List Fragment) (es1 : List ResourceEntry) (e : ResourceEntry)
    (h1 : mapScriptlets map st l1 = Outcome.ok (st1, es1))
    (h2 : transformScriptlet st1 map p = Outcome.ok (st2, e)) :
    mapScriptlets map st (l1 ++ [p]) = Outcome.ok (st2, es1 ++ [e]) := by
  apply mapScriptlets_append map l1 st st1 st2 es1 [e] [p] h1
  simp [mapScriptlets, h2]

theorem publicPositions_sorted (cat : List Fragment) :
    (publicPositions cat).Pairwise (· < ·) :=
  List.Pairwise.filter _ (List.pairwise_lt_range _)

theorem publicPositions_mem {cat : List Fragment} {p : Nat} :
    p ∈ publicPositions cat ↔ ∃ s, cat[p]? = some s ∧ isPrivate s = false := by
  unfold publicPositions
  rw [List.mem_filter]
  constructor
  · rintro ⟨_, h2⟩
    cases hp : cat[p]? with
    | none => rw [hp] at h2; simp at h2
    | some s =>
      rw [hp] at h2
      exact ⟨s, rfl, by simpa using h2⟩
  · rintro ⟨s, hs, hpriv⟩
    refine ⟨?_, ?_⟩
    · rcases List.getElem?_eq_some.1 hs with ⟨h, _⟩
      exact List.mem_range.2 h
    · rw [hs]; simp [hpriv]

theorem filter_lt_of_sorted (done rest : List Nat) (p : Nat)
    (h : (done ++ p :: rest).Pairwise (· < ·)) :
    (done ++ p :: rest).filter (fun q => decide (q < p)) = done := by
  rw [List.pairwise_append] at h
  obtain ⟨_, h2, h3⟩ := h
  rw [List.filter_append]
  have h4 : done.filter (fun q => decide (q < p)) = done := by
    rw [List.filter_eq_self]
    intro a ha
    simpa using h3 a ha p (by simp)
  have h5 : (p :: rest).filter (fun q => decide (q < p)) = [] := by
    rw [List.filter_eq_nil_iff]
    intro a ha
    rcases List.mem_cons.1 ha with rfl | ha
    · simp
    · have := (List.pairwise_cons.1 h2).1 a ha
      simp only [decide_eq_true_eq]
      omega
  rw [h4, h5, List.append_nil]

theorem RunInv.start (cat : List Fragment) : RunInv cat cat [] :=
  ⟨rfl, fun _ _ => rfl, fun _ _ => Iff.rfl⟩

theorem RunInv.step {cat st : List Fragment} {done : List Nat} (hinv : RunInv cat st done)
    {p : Nat} {s : Fragment} (hs : st[p]? = some s) {L : List String}
    (hL : ExpandInv st (dependencyMap cat) (dependenciesAt st p) L L.length) :
    RunInv cat (writeBack st p s L.reverse) (done ++ [p]) := by
  constructor
  · rw [writeBack_shape hs, hinv.shape]
  · intro k hk
    have hkd : k ∉ done := fun h => hk (List.mem_append_left _ h)
    have hkp : k ≠ p := fun h => hk (by simp [h])
    rw [writeBack_getElem? hs, if_neg (fun h => hkp h.1)]
    exact hinv.untouched k hkd
  · intro k x
    rw [reachable_writeBack hs hL, hinv.reach]

theorem mapScriptlets_spec (cat : List Fragment) (ps : List Nat) :
    ∀ (st : List Fragment) (done : List Nat) (esd : List ResourceEntry),
      RunInv cat st done →
      mapScriptlets (dependencyMap cat) cat done = Outcome.ok (st, esd) →
      (∃ rest, done ++ ps ++ rest = publicPositions cat) →
      (∃ st2 es, mapScriptlets (dependencyMap cat) st ps = Outcome.ok (st2, es) ∧
        RunInv cat st2 (done ++ ps) ∧ List.Forall₂ (Compiled cat) ps es ∧
        ∀ p, p ∈ ps → ∀ x, ReachableFrom (dependencyMap cat) cat p x →
          ∃ k, dependencyMap cat x = some k) ∨
      (∃ e, mapScriptlets (dependencyMap cat) st ps = Outcome.throws e ∧
        ∃ p, p ∈ ps ∧ ∃ x, ReachableFrom (dependencyMap cat) cat p x ∧
          dependencyMap cat x = none) := by
  induction ps with
  | nil =>
    intro st done esd hinv _ _
    left
    exact ⟨st, [], rfl, by simpa using hinv, List.Forall₂.nil, fun p hp => by simp at hp⟩
  | cons p ps2 ih =>
    intro st done esd hinv hrun hsplit
    obtain ⟨rest, hrest⟩ := hsplit
    have hsorted := publicPositions_sorted cat
    have hsplit2 : done ++ p :: (ps2 ++ rest) = publicPositions cat := by
      rw [← hrest]; simp
    have hpmem : p ∈ publicPositions cat := by
      rw [← hsplit2]; simp
    obtain ⟨s0, hs0, _⟩ := publicPositions_mem.1 hpmem
    have hpdone : p ∉ done := by
      intro hmem
      rw [← hsplit2, List.pairwise_append] at hsorted
      have := hsorted.2.2 p hmem p (by simp)
      omega
    have hs : st[p]? = some s0 := by rw [hinv.untouched p hpdone, hs0]
    have hbefore : catalogBefore cat p = Outcome.ok st := by
      unfold catalogBefore
      rw [← hsplit2, filter_lt_of_sorted done (ps2 ++ rest) p (by rw [hsplit2]; exact hsorted),
        hrun]
    have hdeps : dependenciesAt st p = dependenciesAt cat p := by
      unfold dependenciesAt
      rw [hs, hs0]
    rcases transformScriptlet_spec st (dependencyMap cat) (MapValid.of_shape hinv.shape) p s0 hs
      with ⟨L, hL, hres, htr⟩ | ⟨e, x, htr, _, hreach, hx⟩
    · have hinv1 := hinv.step hs hL
      have hrun1 := mapScriptlets_snoc (dependencyMap cat) done p cat st _ esd _ hrun htr
      have hresol : Resolution cat p L := by
        constructor
        · obtain ⟨extra, h1, h2, h3⟩ := hL.pushed
          rw [hdeps] at h1 h3
          exact ⟨extra, h1, h2, fun x hx => (h3 x hx).1⟩
        · intro x
          rw [hL.mem_iff, hinv.reach]
        · intro x hx
          exact hL.present x hx
      have hcomp : Compiled cat p (compiledEntry s0 (preludeText st (dependencyMap cat) L.reverse)) := by
        refine ⟨s0, L, hs0, hresol, ?_, ?_⟩
        · unfold preludeNames
          rw [hbefore]
          simp only [hs]
          exact hres
        · rw [preludeText_shape _ hinv.shape]
      rcases ih _ (done ++ [p]) _ hinv1 hrun1 ⟨rest, by rw [← hrest]; simp⟩ with
        ⟨st2, es, hrun2, hinv2, hfa, hpres⟩ | ⟨e, hrun2, p2, hp2, x, hx1, hx2⟩
      · left
        refine ⟨st2, _ :: es, ?_, ?_, List.Forall₂.cons hcomp hfa, ?_⟩
        · simp only [mapScriptlets, htr, hrun2]
        · have : done ++ p :: ps2 = done ++ [p] ++ ps2 := by simp
          rw [this]; exact hinv2
        · intro q hq x hx
          rcases List.mem_cons.1 hq with rfl | hq
          · exact hresol.present x ((hresol.mem_iff x).2 hx)
          · exact hpres q hq x hx
      · right
        refine ⟨e, ?_, p2, List.mem_cons_of_mem _ hp2, x, hx1, hx2⟩
        simp only [mapScriptlets, htr, hrun2]
    · right
      refine ⟨e, ?_, p, by simp, x, (hinv.reach p x).1 hreach, hx⟩
      simp only [mapScriptlets, htr]

theorem transformUboBuiltins_spec (cat : List Fragment) :
    (∃ st es, transformUboBuiltins cat = Outcome.ok (st, es) ∧
      List.Forall₂ (Compiled cat) (publicPositions cat) es ∧
      ∀ p, p ∈ publicPositions cat → ∀ x, ReachableFrom (dependencyMap cat) cat p x →
        ∃ k, dependencyMap cat x = some k) ∨
    (∃ e, transformUboBuiltins cat = Outcome.throws e ∧
      ∃ p, p ∈ publicPositions cat ∧ ∃ x, ReachableFrom (dependencyMap cat) cat p x ∧
        dependencyMap cat x = none) := by
  rcases mapScriptlets_spec cat (publicPositions cat) cat [] [] (RunInv.start cat) rfl
      ⟨[], by simp⟩ with ⟨st2, es, h1, _, h3, h4⟩ | ⟨e, h1, h2⟩
  · left; exact ⟨st2, es, h1, h3, h4⟩
  · right; exact ⟨e, h1, h2⟩

theorem reachable_present {cat : List Fragment} (hall : AllPresent cat) {p : Nat} {x : String}
    (h : ReachableFrom (dependencyMap cat) cat p x) : ∃ k, dependencyMap cat x = some k := by
  have hx : x ∈ cat.map Fragment.name := by
    obtain ⟨d, hd, hrt⟩ := h
    cases hrt with
    | refl => exact hall _ (referencedNames_mem hd)
    | tail _ hstep =>
      obtain ⟨k, _, hm⟩ := hstep
      exact hall _ (referencedNames_mem hm)
  cases hm : dependencyMap cat x with
  | none => exact absurd hx (dependencyMap_none.1 hm)
  | some k => exact ⟨k, rfl⟩

theorem forall₂_of_mem {α β : Type} {R : α → β → Prop} {l1 : List α} {l2 : List β}
    (h : List.Forall₂ R l1 l2) {a : α} (ha : a ∈ l1) : ∃ b, b ∈ l2 ∧ R a b := by
  induction h with
  | nil => simp at ha
  | cons hr _ ih =>
    rcases List.mem_cons.1 ha with rfl | ha
    · exact ⟨_, by simp, hr⟩
    · obtain ⟨b, hb, hab⟩ := ih ha
      exact ⟨b, List.mem_cons_of_mem _ hb, hab⟩

theorem transformUboBuiltins_of_allPresent {cat : List Fragment} (hall : AllPresent cat) :
    ∃ st es, transformUboBuiltins cat = Outcome.ok (st, es) ∧
      List.Forall₂ (Compiled cat) (publicPositions cat) es := by
  rcases transformUboBuiltins_spec cat with ⟨st, es, h1, h2, _⟩ | ⟨e, _, p, _, x, hx1, hx2⟩
  · exact ⟨st, es, h1, h2⟩
  · obtain ⟨k, hk⟩ := reachable_present hall hx1
    rw [hk] at hx2
    simp at hx2

theorem preludeNames_of_allPresent {cat : List Fragment} (hall : AllPresent cat)
    {i : Nat} {s : Fragment} (hs : cat[i]? = some s) (hpub : isPrivate s = false) :
    ∃ expanded, Resolution cat i expanded ∧
      preludeNames cat i = Outcome.ok expanded.reverse := by
  obtain ⟨st, es, _, hfa⟩ := transformUboBuiltins_of_allPresent hall
  obtain ⟨e, _, s2, expanded, _, hres, hnames, _⟩ :=
    forall₂_of_mem hfa (publicPositions_mem.2 ⟨s, hs, hpub⟩)
  exact ⟨expanded, hres, hnames⟩

theorem publicPositions_filter (cat : List Fragment) :
    List.Forall₂ (fun p s => cat[p]? = some s) (publicPositions cat)
      (cat.filter (fun s => !isPrivate s)) := by
  induction cat using List.reverseRecOn with
  | nil => simp [publicPositions]
  | append_singleton l a ih =>
    have hrange : publicPositions (l ++ [a]) =
        publicPositions l ++ (if isPrivate a then [] else [l.length]) := by
      unfold publicPositions
      rw [List.length_append, List.length_singleton, List.range_succ, List.filter_append]
      congr 1
      · apply List.filter_congr
        intro k hk
        rw [List.getElem?_append_left (List.mem_range.1 hk)]
      · simp only [List.filter_cons, List.filter_nil]
        rw [List.getElem?_append_right (le_refl _)]
        simp only [Nat.sub_self, List.getElem?_cons_zero]
        cases isPrivate a <;> simp
    rw [hrange, List.filter_append]
    apply List.rel_append
    · apply List.Forall₂.imp _ ih
      intro p s hps
      have hlt : p < l.length := by
        rcases List.getElem?_eq_some.1 hps with ⟨h, _⟩
        exact h
      rw [List.getElem?_append_left hlt]
      exact hps
    · cases hpa : isPrivate a
      · simp [hpa]
      · simp [hpa]

theorem compiled_fields {cat : List Fragment} :
    ∀ {ps : List Nat} {es : List ResourceEntry} {ss : List Fragment},
      List.Forall₂ (Compiled cat) ps es →
      List.Forall₂ (fun p s => cat[p]? = some s) ps ss →
      es.map (fun e => (e.name, e.aliases, e.kind)) =
        ss.map (fun s => (s.name, s.aliases.getD [], Kind.mime "application/javascript")) := by
  intro ps es ss h1
  induction h1 generalizing ss with
  | nil =>
    intro h2
    cases h2
    rfl
  | cons hc _ ih =>
    intro h2
    cases h2 with
    | cons hps hrest =>
      obtain ⟨s, expanded, hs, _, _, he⟩ := hc
      rw [hps] at hs
      injection hs with hs
      subst hs
      simp only [List.map_cons, ih hrest, he, compiledEntry]

theorem filter_lt_initial (l : List Nat) (i : Nat) (h : l.Pairwise (· < ·)) :
    ∃ rest, l.filter (fun q => decide (q < i)) ++ rest = l := by
  induction l with
  | nil => exact ⟨[], rfl⟩
  | cons a l2 ih =>
    rw [List.pairwise_cons] at h
    by_cases ha : a < i
    · obtain ⟨rest, hrest⟩ := ih h.2
      refine ⟨rest, ?_⟩
      rw [List.filter_cons_of_pos (by simpa using ha)]
      simp [hrest]
    · refine ⟨a :: l2, ?_⟩
      have hnil : (a :: l2).filter (fun q => decide (q < i)) = [] := by
        rw [List.filter_eq_nil_iff]
        intro b hb
        rcases List.mem_cons.1 hb with rfl | hb
        · simpa using ha
        · have := h.1 b hb
          simp only [decide_eq_true_eq]
          omega
      rw [hnil]
      rfl

theorem preludeNames_terminates (cat : List Fragment) (i : Nat) :
    preludeNames cat i ≠ Outcome.outOfFuel := by
  obtain ⟨rest, hrest⟩ := filter_lt_initial (publicPositions cat) i (publicPositions_sorted cat)
  unfold preludeNames catalogBefore
  rcases mapScriptlets_spec cat ((publicPositions cat).filter (fun q => decide (q < i))) cat [] []
      (RunInv.start cat) rfl ⟨rest, by simpa using hrest⟩ with
    ⟨st2, es, h1, _, _, _⟩ | ⟨e, h1, _⟩
  · rw [h1]
    simp only []
    cases hs : st2[i]? with
    | none => simp
    | some s =>
      simp only []
      rcases resolveDependencies_spec st2 (dependencyMap cat) i s hs with
        ⟨L, hL, _⟩ | ⟨e, x, he, _, _⟩
      · rw [hL]; simp
      · rw [he]; simp
  · rw [h1]
    simp

theorem generateResources_terminates (cat : List Fragment) (uBlockResources : List ResourceEntry)
    (braveResources : Except JsError (List ResourceEntry)) :
    generateResources cat uBlockResources braveResources ≠ Outcome.outOfFuel := by
  unfold generateResources
  rcases transformUboBuiltins_spec cat with ⟨st, es, h1, _, _⟩ | ⟨e, h1, _⟩
  · rw [h1]
    cases braveResources <;> simp
  · rw [h1]
    simp

theorem generateResources_of_allPresent {cat : List Fragment} (hall : AllPresent cat)
    (uBlockResources remote : List ResourceEntry) :
    ∃ compiled, generateResources cat uBlockResources (Except.ok remote) =
        Outcome.ok (uBlockResources ++ remote ++ compiled) ∧
      List.Forall₂ (Compiled cat) (publicPositions cat) compiled := by
  obtain ⟨st, es, h1, h2⟩ := transformUboBuiltins_of_allPresent hall
  refine ⟨es, ?_, h2⟩
  unfold generateResources
  rw [h1]

theorem compiled_in_manifest {cat : List Fragment} (hall : AllPresent cat)
    {i : Nat} {s : Fragment} (hs : cat[i]? = some s) (hpub : isPrivate s = false)
    {names : List String} (hnames : preludeNames cat i = Outcome.ok names)
    (uBlockResources remote : List ResourceEntry) :
    ∃ compiled, generateResources cat uBlockResources (Except.ok remote) =
        Outcome.ok (uBlockResources ++ remote ++ compiled) ∧
      compiledEntry s (preludeText cat (dependencyMap cat) names) ∈ compiled := by
  obtain ⟨compiled, h1, h2⟩ := generateResources_of_allPresent hall uBlockResources remote
  obtain ⟨e, he, s2, expanded, hs2, _, hn2, heq⟩ :=
    forall₂_of_mem h2 (publicPositions_mem.2 ⟨s, hs, hpub⟩)
  rw [hs] at hs2
  injection hs2 with hs2
  rw [hnames] at hn2
  injection hn2 with hn2
  subst hs2
  subst hn2
  refine ⟨compiled, h1, ?_⟩
  rw [← heq]
  exact he

theorem preludeNames_ok {cat : List Fragment} {i : Nat} {s : Fragment}
    (hs : cat[i]? = some s) {names : List String}
    (h : preludeNames cat i = Outcome.ok names) :
    ∃ expanded, names = expanded.reverse ∧ Resolution cat i expanded := by
  obtain ⟨rest, hrest⟩ := filter_lt_initial (publicPositions cat) i (publicPositions_sorted cat)
  unfold preludeNames catalogBefore at h
  rcases mapScriptlets_spec cat ((publicPositions cat).filter (fun q => decide (q < i))) cat [] []
      (RunInv.start cat) rfl ⟨rest, by simpa using hrest⟩ with
    ⟨st2, es, h1, hinv, _, _⟩ | ⟨e, h1, _⟩
  · rw [h1] at h
    simp only [List.nil_append] at hinv
    have hs2 : st2[i]? = some s := by
      rw [hinv.untouched i (by simp), hs]
    simp only [hs2] at h
    have hdeps : dependenciesAt st2 i = dependenciesAt cat i := by
      unfold dependenciesAt
      rw [hs2, hs]
    rcases resolveDependencies_spec st2 (dependencyMap cat) i s hs2 with
      ⟨L, hL, hE⟩ | ⟨e, x, he, _, _⟩
    · rw [hL] at h
      injection h with h
      refine ⟨L, h.symm, ?_⟩
      constructor
      · obtain ⟨extra, e1, e2, e3⟩ := hE.pushed
        rw [hdeps] at e1 e3
        exact ⟨extra, e1, e2, fun x hx => (e3 x hx).1⟩
      · intro x
        rw [hE.mem_iff, hinv.reach]
      · intro x hx
        exact hE.present x hx
    · rw [he] at h
      simp at h
  · rw [h1] at h
    simp at h

/-- C1 (counterexample). In `diamondCatalog` every referenced name is present,
`a.fn` and `b.fn` are dependencies of the public `f.js`, and `b.fn` declares
`a.fn`; yet the prelude of `f.js` is the body of `b.fn` followed by the body of
`a.fn`, so the body of `a.fn` does not stand before the body of `b.fn`. -/
theorem prelude_order_counterexample :
    AllPresent diamondCatalog ∧
    ReachableFrom (dependencyMap diamondCatalog) diamondCatalog 0 "a.fn" ∧
    ReachableFrom (dependencyMap diamondCatalog) diamondCatalog 0 "b.fn" ∧
    DependsOn (dependencyMap diamondCatalog) diamondCatalog "b.fn" "a.fn" ∧
    preludeNames diamondCatalog 0 = Outcome.ok ["b.fn", "a.fn"] ∧
    concatBodies diamondCatalog (dependencyMap diamondCatalog) ["b.fn", "a.fn"] "" =
      Outcome.ok "B\nA\n" ∧
    ¬ appearsBefore ["b.fn", "a.fn"] "a.fn" "b.fn" := by
  refine ⟨?_, ?_, ?_, ?_, ?_, ?_, ?_⟩
  · unfold AllPresent; decide
  · exact ⟨"a.fn", by decide, Relation.ReflTransGen.refl⟩
  · exact ⟨"b.fn", by decide, Relation.ReflTransGen.refl⟩
  · exact ⟨2, by decide, by decide⟩
  · decide
  · decide
  · unfold appearsBefore; decide

/-- C1 (amended). When every referenced name is present, `F` is public, `D2`
is declared by `F` itself and `D1` is declared by `D2` but not by `F`, the
prelude of `F` holds the body of `D1` once, and before every body of `D2`. -/
theorem prelude_order_direct (cat : List Fragment) (i : Nat) (s : Fragment) (D1 D2 : String)
    (hall : AllPresent cat) (hs : cat[i]? = some s) (hpub : isPrivate s = false)
    (h2 : D2 ∈ s.dependencies.getD []) (h1 : D1 ∉ s.dependencies.getD [])
    (hdep : DependsOn (dependencyMap cat) cat D2 D1) :
    ∃ names, preludeNames cat i = Outcome.ok names ∧ D1 ∈ names ∧ D2 ∈ names ∧
      names.count D1 = 1 ∧ appearsBefore names D1 D2 ∧
      ∀ uBlockResources remote, ∃ compiled,
        generateResources cat uBlockResources (Except.ok remote) =
          Outcome.ok (uBlockResources ++ remote ++ compiled) ∧
        compiledEntry s (preludeText cat (dependencyMap cat) names) ∈ compiled := by
  obtain ⟨L, hres, hnames⟩ := preludeNames_of_allPresent hall hs hpub
  have hinit := dependenciesAt_of_getElem? hs
  obtain ⟨extra, hL, hnd, hnew⟩ := hres.pushed
  rw [hinit] at hL hnew
  have hD2 : D2 ∈ L := by rw [hL]; exact List.mem_append_left _ h2
  have hD1 : D1 ∈ L :=
    (hres.mem_iff D1).2 ⟨D2, by rw [hinit]; exact h2, Relation.ReflTransGen.single hdep⟩
  have hD1e : D1 ∈ extra := by
    rw [hL] at hD1
    rcases List.mem_append.1 hD1 with h | h
    · exact absurd h h1
    · exact h
  have hD2e : D2 ∉ extra := fun h => (hnew D2 h) h2
  refine ⟨L.reverse, hnames, List.mem_reverse.2 hD1, List.mem_reverse.2 hD2, ?_, ?_,
    fun u r => compiled_in_manifest hall hs hpub hnames u r⟩
  · rw [List.count_reverse, hL, List.count_append, List.count_eq_zero_of_not_mem h1,
      List.count_eq_one_of_mem hnd hD1e]
  · unfold appearsBefore
    rw [hL, List.reverse_append,
      List.indexOf_append_of_mem (List.mem_reverse.2 hD1e),
      List.indexOf_append_of_not_mem (fun h => hD2e (List.mem_reverse.1 h))]
    have := List.indexOf_lt_length.2 (List.mem_reverse.2 hD1e)
    omega

/-- C1 (witness). The amended ordering statement at `chainCatalog`: `f.js`
declares `a.fn`, which declares `b.fn`. -/
theorem prelude_order_direct_witness :
    AllPresent chainCatalog ∧
    DependsOn (dependencyMap chainCatalog) chainCatalog "a.fn" "b.fn" ∧
    ∃ names, preludeNames chainCatalog 0 = Outcome.ok names ∧ "b.fn" ∈ names ∧
      "a.fn" ∈ names ∧ names.count "b.fn" = 1 ∧ appearsBefore names "b.fn" "a.fn" ∧
      ∀ uBlockResources remote, ∃ compiled,
        generateResources chainCatalog uBlockResources (Except.ok remote) =
          Outcome.ok (uBlockResources ++ remote ++ compiled) ∧
        compiledEntry chainHead (preludeText chainCatalog (dependencyMap chainCatalog) names) ∈
          compiled :=
  ⟨by unfold AllPresent; decide, ⟨1, by decide, by decide⟩,
    prelude_order_direct chainCatalog 0 chainHead
      "b.fn" "a.fn" (by unfold AllPresent; decide) (by decide) (by decide) (by decide)
      (by decide) ⟨1, by decide, by decide⟩⟩

/-- C2 (counterexample). In `repeatedCatalog` every referenced name is
present, and the prelude of the public `f.js` is built from the name `a.fn`
twice: the body of `a.fn` stands in it two times. -/
theorem prelude_once_counterexample :
    AllPresent repeatedCatalog ∧
    preludeNames repeatedCatalog 0 = Outcome.ok ["a.fn", "a.fn"] ∧
    List.count "a.fn" ["a.fn", "a.fn"] = 2 ∧
    concatBodies repeatedCatalog (dependencyMap repeatedCatalog) ["a.fn", "a.fn"] "" =
      Outcome.ok "A\nA\n" := by
  refine ⟨?_, ?_, ?_, ?_⟩
  · unfold AllPresent; decide
  · decide
  · decide
  · decide

/-- C2 (amended). When every referenced name is present and `F` is public, the
names whose bodies make up the prelude of `F` are exactly the names reachable
from `F`; a name that `F` does not declare itself occurs once, a name that `F`
declares occurs as often as the declared array repeats it, so every name occurs
exactly once when the declared array has no repetition. -/
theorem prelude_names_exact (cat : List Fragment) (i : Nat) (s : Fragment)
    (hall : AllPresent cat) (hs : cat[i]? = some s) (hpub : isPrivate s = false) :
    ∃ names, preludeNames cat i = Outcome.ok names ∧
      (∀ x, x ∈ names ↔ ReachableFrom (dependencyMap cat) cat i x) ∧
      (∀ x, x ∈ names → names.count x =
        if x ∈ s.dependencies.getD [] then (s.dependencies.getD []).count x else 1) ∧
      ((s.dependencies.getD []).Nodup → names.Nodup) ∧
      ∀ uBlockResources remote, ∃ compiled,
        generateResources cat uBlockResources (Except.ok remote) =
          Outcome.ok (uBlockResources ++ remote ++ compiled) ∧
        compiledEntry s (preludeText cat (dependencyMap cat) names) ∈ compiled := by
  obtain ⟨L, hres, hnames⟩ := preludeNames_of_allPresent hall hs hpub
  have hinit := dependenciesAt_of_getElem? hs
  obtain ⟨extra, hL, hnd, hnew⟩ := hres.pushed
  rw [hinit] at hL hnew
  refine ⟨L.reverse, hnames, ?_, ?_, ?_,
    fun u r => compiled_in_manifest hall hs hpub hnames u r⟩
  · intro x
    rw [List.mem_reverse]
    exact hres.mem_iff x
  · intro x hx
    rw [List.count_reverse, hL, List.count_append]
    by_cases hxi : x ∈ s.dependencies.getD []
    · rw [if_pos hxi, List.count_eq_zero_of_not_mem (fun h => (hnew x h) hxi)]
      rfl
    · rw [if_neg hxi, List.count_eq_zero_of_not_mem hxi]
      have hxe : x ∈ extra := by
        rw [List.mem_reverse, hL] at hx
        rcases List.mem_append.1 hx with h | h
        · exact absurd h hxi
        · exact h
      rw [List.count_eq_one_of_mem hnd hxe]
  · intro hnodup
    rw [List.nodup_reverse, hL]
    exact List.nodup_append.2 ⟨hnodup, hnd, fun x hx1 hx2 => (hnew x hx2) hx1⟩

/-- C2 (witness). The closure statement at `diamondCatalog`, where `a.fn` is
reachable from `f.js` along two paths. -/
theorem prelude_names_exact_witness :
    AllPresent diamondCatalog ∧
    ∃ names, preludeNames diamondCatalog 0 = Outcome.ok names ∧
      (∀ x, x ∈ names ↔ ReachableFrom (dependencyMap diamondCatalog) diamondCatalog 0 x) ∧
      (∀ x, x ∈ names → names.count x =
        if x ∈ ["a.fn", "b.fn"] then List.count x ["a.fn", "b.fn"] else 1) ∧
      (["a.fn", "b.fn"].Nodup → names.Nodup) ∧
      ∀ uBlockResources remote, ∃ compiled,
        generateResources diamondCatalog uBlockResources (Except.ok remote) =
          Outcome.ok (uBlockResources ++ remote ++ compiled) ∧
        compiledEntry diamondHead
          (preludeText diamondCatalog (dependencyMap diamondCatalog) names) ∈ compiled :=
  ⟨by unfold AllPresent; decide,
    prelude_names_exact diamondCatalog 0 diamondHead
      (by unfold AllPresent; decide) (by decide) (by decide)⟩

/-- C4 (counterexample). In `cycleCatalog` the entries `a.js` and `b.fn`
declare each other; resolving `a.js` raises no error: it yields a prelude made
of the bodies of `a.js` and `b.fn`, and `generateResources` returns a manifest. -/
theorem cycle_counterexample :
    DependsOn (dependencyMap cycleCatalog) cycleCatalog "a.js" "b.fn" ∧
    DependsOn (dependencyMap cycleCatalog) cycleCatalog "b.fn" "a.js" ∧
    preludeNames cycleCatalog 0 = Outcome.ok ["a.js", "b.fn"] ∧
    concatBodies cycleCatalog (dependencyMap cycleCatalog) ["a.js", "b.fn"] "" =
      Outcome.ok "A\nB\n" ∧
    (generateResources cycleCatalog [] (Except.ok [])).isOk = true := by
  refine ⟨⟨0, by decide, by decide⟩, ⟨1, by decide, by decide⟩, ?_, ?_, ?_⟩
  · decide
  · decide
  · decide

/-- C4 (amended). For a catalog in which the public entry `A` declares `B` and
`B` declares `A`, resolving the dependencies of `A` does not loop indefinitely,
and neither does `generateResources`; when every referenced name is present the
resolution does not fail either: it yields a prelude that holds the bodies of
both `B` and `A`, and `generateResources` returns a manifest. -/
theorem cycle_is_resolved (cat : List Fragment) (i : Nat) (A : Fragment) (B : String)
    (hA : cat[i]? = some A) (hpub : isPrivate A = false)
    (hAB : B ∈ A.dependencies.getD [])
    (hBA : DependsOn (dependencyMap cat) cat B A.name) :
    preludeNames cat i ≠ Outcome.outOfFuel ∧
    (∀ uBlockResources braveResources,
      generateResources cat uBlockResources braveResources ≠ Outcome.outOfFuel) ∧
    (AllPresent cat →
      (∃ names, preludeNames cat i = Outcome.ok names ∧ B ∈ names ∧ A.name ∈ names) ∧
      ∀ uBlockResources remote, ∃ manifest,
        generateResources cat uBlockResources (Except.ok remote) = Outcome.ok manifest) := by
  refine ⟨preludeNames_terminates cat i, fun u b => generateResources_terminates cat u b, ?_⟩
  intro hall
  constructor
  · obtain ⟨L, hres, hnames⟩ := preludeNames_of_allPresent hall hA hpub
    have hinit := dependenciesAt_of_getElem? hA
    refine ⟨L.reverse, hnames, ?_, ?_⟩
    · rw [List.mem_reverse, hres.mem_iff]
      exact ⟨B, by rw [hinit]; exact hAB, Relation.ReflTransGen.refl⟩
    · rw [List.mem_reverse, hres.mem_iff]
      exact ⟨B, by rw [hinit]; exact hAB, Relation.ReflTransGen.single hBA⟩
  · intro u remote
    obtain ⟨compiled, h, _⟩ := generateResources_of_allPresent hall u remote
    exact ⟨_, h⟩

/-- C4 (witness). The amended statement at `cycleCatalog`. -/
theorem cycle_is_resolved_witness :
    DependsOn (dependencyMap cycleCatalog) cycleCatalog "b.fn" "a.js" ∧
    preludeNames cycleCatalog 0 ≠ Outcome.outOfFuel ∧
    (∀ uBlockResources braveResources,
      generateResources cycleCatalog uBlockResources braveResources ≠ Outcome.outOfFuel) ∧
    (AllPresent cycleCatalog →
      (∃ names, preludeNames cycleCatalog 0 = Outcome.ok names ∧ "b.fn" ∈ names ∧
        "a.js" ∈ names) ∧
      ∀ uBlockResources remote, ∃ manifest,
        generateResources cycleCatalog uBlockResources (Except.ok remote) =
          Outcome.ok manifest) :=
  ⟨⟨1, by decide, by decide⟩,
    cycle_is_resolved cycleCatalog 0
      { name := "a.js", aliases := none, dependencies := some ["b.fn"], fn := "A" } "b.fn"
      (by decide) (by decide) (by decide) ⟨1, by decide, by decide⟩⟩

/-- C5. If a name reachable from the declared dependencies of a public entry `F`
is borne by no entry of the catalog, then `generateResources` throws, whatever
the static and remote resources are: no manifest is produced, and no prelude is
produced for `F`. -/
theorem missing_dependency_is_fatal (cat : List Fragment) (i : Nat) (F : Fragment)
    (x : String) (uBlockResources : List ResourceEntry)
    (braveResources : Except JsError (List ResourceEntry))
    (hF : cat[i]? = some F) (hpub : isPrivate F = false)
    (hreach : ReachableFrom (dependencyMap cat) cat i x)
    (habsent : x ∉ cat.map Fragment.name) :
    (∃ e, generateResources cat uBlockResources braveResources = Outcome.throws e) ∧
    (∃ e, preludeNames cat i = Outcome.throws e) := by
  have hnone : dependencyMap cat x = none := dependencyMap_none.2 habsent
  constructor
  · unfold generateResources
    rcases transformUboBuiltins_spec cat with ⟨st, es, _, _, h3⟩ | ⟨e, h1, _⟩
    · obtain ⟨k, hk⟩ := h3 i (publicPositions_mem.2 ⟨F, hF, hpub⟩) x hreach
      rw [hk] at hnone
      simp at hnone
    · exact ⟨e, by rw [h1]⟩
  · cases hp : preludeNames cat i with
    | outOfFuel => exact absurd hp (preludeNames_terminates cat i)
    | throws e => exact ⟨e, rfl⟩
    | ok names =>
      obtain ⟨L, _, hres⟩ := preludeNames_ok hF hp
      obtain ⟨k, hk⟩ := hres.present x ((hres.mem_iff x).2 hreach)
      rw [hk] at hnone
      simp at hnone

/-- C5 (witness). In `danglingCatalog` the name `gone.fn` is reachable from
`f.js` through `a.fn` and no entry bears it. -/
theorem missing_dependency_is_fatal_witness :
    ReachableFrom (dependencyMap danglingCatalog) danglingCatalog 0 "gone.fn" ∧
    "gone.fn" ∉ danglingCatalog.map Fragment.name ∧
    (∃ e, generateResources danglingCatalog [] (Except.ok []) = Outcome.throws e) ∧
    (∃ e, preludeNames danglingCatalog 0 = Outcome.throws e) :=
  ⟨⟨"a.fn", by decide, Relation.ReflTransGen.single ⟨1, by decide, by decide⟩⟩,
    by decide,
    missing_dependency_is_fatal danglingCatalog 0
      { name := "f.js", aliases := none, dependencies := some ["a.fn"], fn := "F" }
      "gone.fn" [] (Except.ok []) (by decide) (by decide)
      ⟨"a.fn", by decide, Relation.ReflTransGen.single ⟨1, by decide, by decide⟩⟩
      (by decide)⟩

/-- C6. When every referenced name is present, the array that
`generateResources` serialises is the static resources, then the remote
entries, then one record per entry whose name does not end in `.fn`, in catalog
order, each with the name of its entry, its aliases (or the empty list) and the
kind `application/javascript`; its length is the sum of the three counts. -/
theorem manifest_layout (cat : List Fragment) (uBlockResources remote : List ResourceEntry)
    (hall : AllPresent cat) :
    ∃ compiled, generateResources cat uBlockResources (Except.ok remote) =
        Outcome.ok (uBlockResources ++ remote ++ compiled) ∧
      compiled.map (fun e => (e.name, e.aliases, e.kind)) =
        (cat.filter (fun s => !isPrivate s)).map
          (fun s => (s.name, s.aliases.getD [], Kind.mime "application/javascript")) ∧
      (uBlockResources ++ remote ++ compiled).length =
        (cat.filter (fun s => !isPrivate s)).length + uBlockResources.length + remote.length := by
  obtain ⟨compiled, h1, h2⟩ := generateResources_of_allPresent hall uBlockResources remote
  have hfields := compiled_fields h2 (publicPositions_filter cat)
  refine ⟨compiled, h1, hfields, ?_⟩
  have hlen := congrArg List.length hfields
  simp only [List.length_map] at hlen
  simp only [List.length_append, hlen]
  omega

/-- C6 (witness). The layout statement at `chainCatalog` with one static and
one remote record. -/
theorem manifest_layout_witness :
    AllPresent chainCatalog ∧
    ∃ compiled, generateResources chainCatalog [sampleStatic] (Except.ok [sampleRemote]) =
        Outcome.ok ([sampleStatic] ++ [sampleRemote] ++ compiled) ∧
      compiled.map (fun e => (e.name, e.aliases, e.kind)) =
        (chainCatalog.filter (fun s => !isPrivate s)).map
          (fun s => (s.name, s.aliases.getD [], Kind.mime "application/javascript")) ∧
      ([sampleStatic] ++ [sampleRemote] ++ compiled).length =
        (chainCatalog.filter (fun s => !isPrivate s)).length + [sampleStatic].length +
          [sampleRemote].length :=
  ⟨by unfold AllPresent; decide,
    manifest_layout chainCatalog [sampleStatic] [sampleRemote] (by unfold AllPresent; decide)⟩

/-- C8 (the code at the failing input). In `chainCatalog` the entry `f.js`
declares `["a.fn"]`; once its prelude has been computed its `dependencies`
array is `["b.fn", "a.fn"]`: the catalog has been changed. -/
theorem resolution_mutates_catalog :
    chainCatalog[0]? = some chainHead ∧
    chainHead.dependencies = some ["a.fn"] ∧
    catalogAfter chainCatalog 0 = Outcome.ok
      [ { chainHead with dependencies := some ["b.fn", "a.fn"] },
        { name := "a.fn", aliases := none, dependencies := some ["b.fn"], fn := "A" },
        { name := "b.fn", aliases := none, dependencies := none, fn := "B" } ] ∧
    catalogAfter chainCatalog 0 ≠ Outcome.ok chainCatalog := by
  refine ⟨by decide, by decide, by decide, by decide⟩

theorem scanArgs_supplied (supplied : List String) :
    ∀ (tail : List String) (argIndex last : Nat),
      (∀ j, j < supplied.length →
        supplied[j]? ≠ some ("\x7b\x7b" ++ toString (argIndex + j + 1) ++ "\x7d\x7d")) →
      (tail = [] ∨ ∃ rest, tail =
        ("\x7b\x7b" ++ toString (argIndex + supplied.length + 1) ++ "\x7d\x7d") :: rest) →
      scanArgs (supplied ++ tail) argIndex last = last + supplied.length := by
  induction supplied with
  | nil =>
    intro tail argIndex last _ htail
    rcases htail with rfl | ⟨rest, rfl⟩
    · simp [scanArgs]
    · simp [scanArgs]
  | cons a rest ih =>
    intro tail argIndex last hne htail
    have h0 := hne 0 (by simp)
    simp only [List.getElem?_cons_zero, Nat.add_zero, ne_eq, Option.some.injEq] at h0
    simp only [List.cons_append, scanArgs, if_neg h0, List.append_eq]
    rw [ih tail (argIndex + 1) (last + 1)]
    · simp only [List.length_cons]; omega
    · intro j hj
      have := hne (j + 1) (by simp only [List.length_cons]; omega)
      simp only [List.getElem?_cons_succ] at this
      have e : argIndex + 1 + j + 1 = argIndex + (j + 1) + 1 := by omega
      rw [e]
      exact this
    · rcases htail with h | ⟨r, h⟩
      · exact Or.inl h
      · right
        refine ⟨r, ?_⟩
        have e : argIndex + 1 + rest.length + 1 = argIndex + (a :: rest).length + 1 := by
          simp only [List.length_cons]; omega
        rw [e]
        exact h

theorem sentinelArgs_getElem? (j : Nat) (hj : j < 9) :
    sentinelArgs[j]? = some ("\x7b\x7b" ++ toString (0 + j + 1) ++ "\x7d\x7d") := by
  interval_cases j <;> decide

theorem sentinelArgs_drop (k : Nat) (hk : k ≤ 9) :
    sentinelArgs.drop k = [] ∨ ∃ rest, sentinelArgs.drop k =
      ("\x7b\x7b" ++ toString (0 + k + 1) ++ "\x7d\x7d") :: rest := by
  interval_cases k
  · exact Or.inr ⟨_, rfl⟩
  · exact Or.inr ⟨_, rfl⟩
  · exact Or.inr ⟨_, rfl⟩
  · exact Or.inr ⟨_, rfl⟩
  · exact Or.inr ⟨_, rfl⟩
  · exact Or.inr ⟨_, rfl⟩
  · exact Or.inr ⟨_, rfl⟩
  · exact Or.inr ⟨_, rfl⟩
  · exact Or.inr ⟨_, rfl⟩
  · exact Or.inl (by decide)

/-- C3 (counterexample). Two placeholders are replaced by caller texts, the
second text being `{{2}}`, and the other seven are left as they are: the
wrapper ends its loop with `last_arg_index` 1, not 2, and calls the target with
the first text only. -/
theorem wrapper_count_counterexample :
    substitutedArgs ["x", "\x7b\x7b2\x7d\x7d"] =
      ["x", "\x7b\x7b2\x7d\x7d", "\x7b\x7b3\x7d\x7d", "\x7b\x7b4\x7d\x7d", "\x7b\x7b5\x7d\x7d",
        "\x7b\x7b6\x7d\x7d", "\x7b\x7b7\x7d\x7d", "\x7b\x7b8\x7d\x7d", "\x7b\x7b9\x7d\x7d"] ∧
    lastArgIndex (substitutedArgs ["x", "\x7b\x7b2\x7d\x7d"]) = 1 ∧
    invocationArgs (substitutedArgs ["x", "\x7b\x7b2\x7d\x7d"]) = ["x"] := by
  refine ⟨by decide, by decide, by decide⟩

/-- C3 (amended). For every k from 0 to 9: when the placeholders 1 to k hold
caller texts, none of which is the very placeholder it replaces, and the
placeholders k+1 to 9 are left as they are, the loop of the wrapper ends with
`last_arg_index` equal to k and the target is called with exactly the k caller
texts, in order. -/
theorem wrapper_argument_count (supplied : List String) (hk : supplied.length ≤ 9)
    (hreplaced : ∀ j, j < supplied.length → supplied[j]? ≠ sentinelArgs[j]?) :
    lastArgIndex (substitutedArgs supplied) = supplied.length ∧
    invocationArgs (substitutedArgs supplied) = supplied := by
  have hlast : lastArgIndex (substitutedArgs supplied) = supplied.length := by
    unfold lastArgIndex substitutedArgs
    rw [scanArgs_supplied supplied _ 0 0]
    · omega
    · intro j hj
      rw [← sentinelArgs_getElem? j (by omega)]
      exact hreplaced j hj
    · exact sentinelArgs_drop _ hk
  refine ⟨hlast, ?_⟩
  unfold invocationArgs
  rw [hlast]
  unfold substitutedArgs
  simp

/-- C3 (witness). Three caller texts. -/
theorem wrapper_argument_count_witness :
    lastArgIndex (substitutedArgs ["div", "click", "3"]) = 3 ∧
    invocationArgs (substitutedArgs ["div", "click", "3"]) = ["div", "click", "3"] :=
  wrapper_argument_count ["div", "click", "3"] (by decide) (by
    intro j hj
    have hj3 : j < 3 := hj
    interval_cases j <;> decide)

theorem checkRequests_eq (check : String → String → String → Bool) (title : String)
    (requests : List (String × String × String)) :
    checkRequests check title requests =
      match requests.find? (fun request => check request.1 request.2.1 request.2.2) with
      | some request => Except.error (JsError.error (sanityMessage title request))
      | none => Except.ok () := by
  induction requests with
  | nil => rfl
  | cons r rest ih =>
    simp only [checkRequests, List.find?_cons]
    cases hc : check r.1 r.2.1 r.2.2
    · simp only [Bool.false_eq_true, if_false]
      exact ih
    · simp

/-- C7. `sanityCheckList` throws if and only if the check function of the
engine blocks some request of the corpus; the error it throws has the message
made of the title of the list, the words ` failed sanity check for `, the first
blocked request of the corpus and the closing sentence; a list for which the
Wikipedia article is blocked as a document makes it throw such an error. -/
theorem sanityCheckList_spec
    (engine : List String → String → String → String → String → Bool) (list : FilterList) :
    ((∃ e, sanityCheckList engine list = Except.error e) ↔
      ∃ request, request ∈ sampleUnblockedNetworkRequests ∧
        engine (list.data.splitOn "\n") list.format request.1 request.2.1 request.2.2 = true) ∧
    (∀ e, sanityCheckList engine list = Except.error e →
      ∃ request, firstBlocked (engine (list.data.splitOn "\n") list.format) = some request ∧
        e = JsError.error (list.title ++ " failed sanity check for " ++
          requestToString request ++ ". Check for corrupted list contents.")) ∧
    (engine (list.data.splitOn "\n") list.format "https://en.wikipedia.org/wiki/Ad_blocking"
        "https://en.wikipedia.org/wiki/Ad_blocking" "document" = true →
      ∃ request, sanityCheckList engine list = Except.error (JsError.error
        (list.title ++ " failed sanity check for " ++ requestToString request ++
          ". Check for corrupted list contents."))) := by
  have hmain := checkRequests_eq (engine (list.data.splitOn "\n") list.format) list.title
    sampleUnblockedNetworkRequests
  have hiff : (∃ e, sanityCheckList engine list = Except.error e) ↔
      ∃ request, request ∈ sampleUnblockedNetworkRequests ∧
        engine (list.data.splitOn "\n") list.format request.1 request.2.1 request.2.2 = true := by
    unfold sanityCheckList
    rw [hmain]
    cases hf : sampleUnblockedNetworkRequests.find?
        (fun request => engine (list.data.splitOn "\n") list.format request.1 request.2.1 request.2.2) with
    | none =>
      simp only [false_iff, not_exists, not_and]
      constructor
      · rintro ⟨e, he⟩
        simp at he
      · rintro ⟨r, hr, hb⟩
        have := List.find?_eq_none.1 hf r hr
        exact absurd hb this
    | some r =>
      constructor
      · intro _
        have hb := List.find?_some hf
        exact ⟨r, List.mem_of_find?_eq_some hf, hb⟩
      · intro _
        exact ⟨_, rfl⟩
  refine ⟨hiff, ?_, ?_⟩
  · intro e he
    unfold sanityCheckList at he
    rw [hmain] at he
    unfold firstBlocked
    cases hf : sampleUnblockedNetworkRequests.find?
        (fun request => engine (list.data.splitOn "\n") list.format request.1 request.2.1 request.2.2) with
    | none => rw [hf] at he; simp at he
    | some r =>
      rw [hf] at he
      simp only [Except.error.injEq] at he
      exact ⟨r, rfl, he.symm⟩
  · intro hwiki
    obtain ⟨e, he⟩ := hiff.2 ⟨("https://en.wikipedia.org/wiki/Ad_blocking",
      "https://en.wikipedia.org/wiki/Ad_blocking", "document"), by decide, hwiki⟩
    unfold sanityCheckList at he ⊢
    rw [hmain] at he ⊢
    cases hf : sampleUnblockedNetworkRequests.find?
        (fun request => engine (list.data.splitOn "\n") list.format request.1 request.2.1 request.2.2) with
    | none => rw [hf] at he; simp at he
    | some r => exact ⟨r, rfl⟩

/-- C7 (witness). An engine that blocks everything: the error names the title
`Sample List` and the first request of the corpus. -/
theorem sanityCheckList_spec_witness :
    sanityCheckList blockAll sampleList = Except.error (JsError.error
      "Sample List failed sanity check for https://antonok.com,https://antonok.com,document. Check for corrupted list contents.") ∧
    ∃ request, sanityCheckList blockAll sampleList = Except.error (JsError.error
      (sampleList.title ++ " failed sanity check for " ++ requestToString request ++
        ". Check for corrupted list contents.")) :=
  ⟨rfl, (sanityCheckList_spec blockAll sampleList).2.2 rfl⟩

theorem isDefaultList_truthy (entry : ListEntry) :
    (isDefaultList entry).truthy = true ↔
      entry.default_enabled.truthy = true ∧ entry.hidden.truthy = true := by
  unfold isDefaultList JsValue.and
  by_cases h : entry.default_enabled.truthy = true
  · rw [if_pos h]
    simp [h]
  · rw [if_neg h]
    simp [h]

/-- C9. `getDefaultLists` and `getRegionalLists` split the catalog: an entry of
the catalog is in the default result exactly when its `default_enabled` and its
`hidden` are both truthy, and in the regional result exactly when they are not;
no entry is in both; each result keeps the order of the catalog; and every
entry occurs in the two results together as often as in the catalog. -/
theorem lists_partition (catalog : List ListEntry) :
    (∀ entry, entry ∈ getDefaultLists catalog ↔
      entry ∈ catalog ∧ entry.default_enabled.truthy = true ∧ entry.hidden.truthy = true) ∧
    (∀ entry, entry ∈ getRegionalLists catalog ↔
      entry ∈ catalog ∧ ¬ (entry.default_enabled.truthy = true ∧ entry.hidden.truthy = true)) ∧
    (∀ entry, ¬ (entry ∈ getDefaultLists catalog ∧ entry ∈ getRegionalLists catalog)) ∧
    List.Sublist (getDefaultLists catalog) catalog ∧
    List.Sublist (getRegionalLists catalog) catalog ∧
    (∀ entry, (getDefaultLists catalog).count entry + (getRegionalLists catalog).count entry =
      catalog.count entry) ∧
    (getDefaultLists catalog).length + (getRegionalLists catalog).length = catalog.length := by
  have hperm : (getDefaultLists catalog ++ getRegionalLists catalog).Perm catalog :=
    List.filter_append_perm _ catalog
  have hd : ∀ entry, entry ∈ getDefaultLists catalog ↔
      entry ∈ catalog ∧ entry.default_enabled.truthy = true ∧ entry.hidden.truthy = true := by
    intro entry
    unfold getDefaultLists
    rw [List.mem_filter, isDefaultList_truthy]
  have hr : ∀ entry, entry ∈ getRegionalLists catalog ↔
      entry ∈ catalog ∧ ¬ (entry.default_enabled.truthy = true ∧ entry.hidden.truthy = true) := by
    intro entry
    unfold getRegionalLists
    rw [List.mem_filter, ← isDefaultList_truthy]
    simp
  refine ⟨hd, hr, ?_, List.filter_sublist _, List.filter_sublist _, ?_, ?_⟩
  · rintro entry ⟨h1, h2⟩
    exact ((hr entry).1 h2).2 ((hd entry).1 h1).2
  · intro entry
    rw [← List.count_append]
    exact hperm.count_eq entry
  · rw [← List.length_append]
    exact hperm.length_eq

theorem lazyCalls_cached {α W : Type} (truthy : α → Bool) (fn : W → α × W) (p : α)
    (hp : truthy p = true) :
    ∀ (n : Nat) (world : W),
      lazyCalls truthy fn n (some p) world = (List.replicate n p, some p, world) := by
  intro n
  induction n with
  | zero => intro world; rfl
  | succ n ih =>
    intro world
    simp only [lazyCalls, lazyInit, hp, if_true, ih, List.replicate_succ]

theorem lazyCalls_first {α W : Type} (truthy : α → Bool) (fn : W → α × W) (world : W) (n : Nat)
    (hpromise : ∀ w, truthy (fn w).1 = true) (hn : 0 < n) :
    lazyCalls truthy fn n none world =
      (List.replicate n (fn world).1, some (fn world).1, (fn world).2) := by
  cases n with
  | zero => omega
  | succ m =>
    simp only [lazyCalls, lazyInit, lazyCalls_cached truthy fn _ (hpromise world),
      List.replicate_succ]

/-- C10. When the initializer returns a promise (a truthy value), any sequence
of n calls, n at least 1, of the function returned by `lazyInit(fn)` returns
the value of one invocation of `fn` every time and leaves the world as that one
invocation leaves it: `fn` is invoked once, on the first call. So n calls of
`getListCatalog` fetch the catalog URL once, and n calls of `generateResources`
fetch the resources URL at most once. -/
theorem lazyInit_once {α W : Type} (truthy : α → Bool) (fn : W → α × W) (world : W) (n : Nat)
    (hpromise : ∀ w, truthy (fn w).1 = true) (hn : 0 < n) :
    lazyCalls truthy fn n none world =
      (List.replicate n (fn world).1, some (fn world).1, (fn world).2) ∧
    (lazyCalls truthy (counted fn) n none (world, 0)).2.2.2 = 1 ∧
    (∀ (β : Type) (network : String → Except String (Response β)),
      (lazyCalls promiseTruthy (listCatalogInit network) n none []).2.2 = [listCatalogUrl]) ∧
    (∀ (builtinScriptlets : List Fragment) (uBlockResources : List ResourceEntry)
        (network : String → Except String (Response (List ResourceEntry))),
      ((lazyCalls promiseTruthy
        (generateResourcesInit builtinScriptlets uBlockResources network) n none []).2.2).length
        ≤ 1) := by
  refine ⟨lazyCalls_first truthy fn world n hpromise hn, ?_, ?_, ?_⟩
  · rw [lazyCalls_first truthy (counted fn) (world, 0) n (fun w => hpromise w.1) hn]
    rfl
  · intro β network
    rw [lazyCalls_first promiseTruthy (listCatalogInit network) [] n (fun _ => rfl) hn]
    rfl
  · intro cat u network
    rw [lazyCalls_first promiseTruthy (generateResourcesInit cat u network) [] n
      (fun _ => rfl) hn]
    unfold generateResourcesInit
    cases transformUboBuiltins cat <;> simp

/-- C10 (witness). Three calls of the memoised `getListCatalog` on a network
that answers with an empty array: the same settled promise three times, one
fetch. -/
theorem lazyInit_once_witness :
    (0 < 3) ∧
    lazyCalls promiseTruthy (listCatalogInit (emptyNetwork : String → Except String (Response (List Nat))))
        3 none [] =
      ([Except.ok [], Except.ok [], Except.ok []], some (Except.ok []), [listCatalogUrl]) :=
  ⟨by decide,
    (lazyInit_once promiseTruthy
      (listCatalogInit (emptyNetwork : String → Except String (Response (List Nat)))) [] 3
      (fun _ => rfl) (by decide)).1⟩

end AdBlockRustUtils
